/-
Verification of the Latvia fuel-price aggregation core
(src/fuel_sources.py, src/main.py, src/parser_utils.py).

The Python code is shallowly embedded: the HTTP transport and the
HTML-to-plain-text reduction are out of scope (spec section 1), so every
adapter takes the already-reduced document text as an `Except Unit String`
(`Except.error` models a transport failure raised inside `self._get`).
Dictionaries are embedded as association lists with unique-key update
(matching Python dict semantics), floats as rationals, and `None` as
`Option.none`.  Regex scanning is embedded by deterministic scanners whose
backtracking order follows Python `re` semantics; each scanner carries a
comment justifying why the greedy/lazy choices it makes coincide with the
backtracking search of the original pattern.
-/
import Mathlib

set_option maxRecDepth 10000

/- Batteries marks the rational arithmetic operations irreducible, which
blocks the evaluation of concrete witnesses; restore the default. -/
attribute [local semireducible] Rat.add Rat.sub Rat.mul Rat.inv Rat.ofScientific

/-! ## Character and string utilities (Python `str.strip`, `str.lower`) -/

/-- Python whitespace (`\s`, `str.strip` default) restricted to the ASCII
whitespace characters that can occur in this program's data. -/
def isPyWS (c : Char) : Bool :=
  c == ' ' || c == '\t' || c == '\n' || c == '\r' || c == '\x0b' || c == '\x0c'

/-- `str.lower` on one character, for the alphabet used by this program:
ASCII letters plus the uppercase Latvian diacritics appearing in the source. -/
def pyLowerChar (c : Char) : Char :=
  if 'A' ≤ c && c ≤ 'Z' then Char.ofNat (c.toNat + 32)
  else match c with
    | 'Ā' => 'ā' | 'Č' => 'č' | 'Ē' => 'ē' | 'Ģ' => 'ģ' | 'Ī' => 'ī'
    | 'Ķ' => 'ķ' | 'Ļ' => 'ļ' | 'Ņ' => 'ņ' | 'Ō' => 'ō' | 'Ŗ' => 'ŗ'
    | 'Š' => 'š' | 'Ū' => 'ū' | 'Ž' => 'ž'
    | _ => c

/-- Remove trailing whitespace from a character list. -/
def rightTrimWS (cs : List Char) : List Char :=
  (cs.reverse.dropWhile isPyWS).reverse

/-- Python `str.strip` on a character list. -/
def pyStripList (cs : List Char) : List Char :=
  rightTrimWS (cs.dropWhile isPyWS)

/-- Python `str.strip`. -/
def pyStrip (s : String) : String := String.mk (pyStripList s.toList)

/-- Python `str.lower`. -/
def pyLower (s : String) : String := String.mk (s.toList.map pyLowerChar)

/-! ## parser_utils.parse_eur -/

/-- Numeric value of a digit list (most significant first). -/
def digitsNat (cs : List Char) : Nat :=
  cs.foldl (fun n c => 10 * n + (c.toNat - 48)) 0

/-- Python `float()` on an unsigned decimal literal: `digits`, `digits.`,
`.digits` or `digits.digits`.  (The exotic forms float() also accepts -
exponents, inf/nan, underscores - cannot reach `parse_eur` in this program
and are modelled as parse failures.) -/
def pyFloatCore (cs : List Char) : Option ℚ :=
  let ip := cs.takeWhile Char.isDigit
  match cs.drop ip.length with
  | [] => if ip.isEmpty then none else some (digitsNat ip : ℚ)
  | '.' :: fr =>
    if fr.all Char.isDigit && !(ip.isEmpty && fr.isEmpty) then
      some ((digitsNat ip : ℚ) + (digitsNat fr : ℚ) / ((10 : ℚ) ^ fr.length))
    else none
  | _ => none

/-- Python `float()` with an optional sign. -/
def pyFloat (cs : List Char) : Option ℚ :=
  match cs with
  | [] => pyFloatCore []
  | c :: rest =>
    if c = '-' then (pyFloatCore rest).map (fun q => -q)
    else if c = '+' then pyFloatCore rest
    else pyFloatCore (c :: rest)

/-- Round-half-to-even on rationals (Python `round`'s tie-breaking rule). -/
def roundHalfEven (q : ℚ) : ℤ :=
  let n := ⌊q⌋
  if q - n < 1/2 then n
  else if 1/2 < q - n then n + 1
  else if Even n then n else n + 1

/-- Python `round(x, 3)`, modelled as exact decimal rounding half-to-even. -/
def round3 (q : ℚ) : ℚ := ((roundHalfEven (q * 1000) : ℚ)) / 1000

/-- parser_utils.py lines 3-7: `parse_eur` replaces commas by dots, strips,
parses a float and rounds to three decimals; any failure yields `None`. -/
def parse_eur (s : String) : Option ℚ :=
  (pyFloat (pyStripList (s.toList.map (fun c => if c == ',' then '.' else c)))).map round3

/-! ## Data model: prices dictionary and StationRecord -/

/-- A station's prices: a Python dict from fuel-key strings to
float-or-None values, embedded as an insertion-ordered association list
with unique keys. -/
abbrev Prices := List (String × Option ℚ)

/-- First-occurrence lookup in the association list (dict `[]`/key test). -/
def lookupP : Prices → String → Option (Option ℚ)
  | [], _ => none
  | (k, v) :: rest, key => if k = key then some v else lookupP rest key

/-- Python `prices.get(k)`: both an absent key and a stored `None` read
back as `None`. -/
def getFlat (p : Prices) (key : String) : Option ℚ :=
  match lookupP p key with
  | some v => v
  | none => none

/-- Python dict assignment `p[k] = v`: overwrite the first binding of `k`
if present, else append (preserving insertion order). -/
def setK : Prices → String → Option ℚ → Prices
  | [], key, v => [(key, v)]
  | (k, v') :: rest, key, v =>
    if k = key then (key, v) :: rest else (k, v') :: setK rest key v

/-- One StationRecord (fuel_sources.py docstring, lines 37-44). -/
structure Station where
  name : String
  address : String
  prices : Prices
  source : String
  timestamp : String
deriving DecidableEq

/-- Canonical key of a record (fuel_sources.py line 66):
`(name.strip().lower(), address.strip().lower())`. -/
def canonKey (st : Station) : String × String :=
  (pyLower (pyStrip st.name), pyLower (pyStrip st.address))

/-! ## Fuel vocabulary normalizer (fuel_sources.py lines 11-32) -/

/-- fuel_sources.py lines 11-13: the canonical fuel key set. -/
def SUPPORTED_FUELS : List String := ["a95", "a98", "diesel", "lpg"]

/-- fuel_sources.py lines 15-20, in dict insertion order. -/
def FUEL_ALIASES : List (String × List String) :=
  [("a95", ["a95", "95", "95e", "95miles", "futura 95", "a-95", "eurosuper 95"]),
   ("a98", ["a98", "98", "98e", "98miles", "futura 98", "a-98", "eurosuper 98"]),
   ("diesel", ["diesel", "d", "dīzelis", "d-miles", "dmiles", "futura d", "miles diesel", "dīzeļdegviela"]),
   ("lpg", ["lpg", "autogāze", "auto gāze", "autogas", "propāns-butāns"])]

/-- fuel_sources.py line 28: the loose a95 forms. -/
def LOOSE_A95 : List String := ["95e", "95m", "a95e"]

/-- fuel_sources.py line 30: the loose a98 forms. -/
def LOOSE_A98 : List String := ["98e", "98m", "a98e"]

/-- The lookup part of `normalize_fuel_type`, applied to the
already-stripped-and-lowered input. -/
def normCore (t : String) : Option String :=
  match FUEL_ALIASES.find? (fun kv => kv.2.contains t) with
  | some kv => some kv.1
  | none =>
    if LOOSE_A95.contains t then some "a95"
    else if LOOSE_A98.contains t then some "a98"
    else if SUPPORTED_FUELS.contains t then some t
    else none

/-- fuel_sources.py lines 22-32: `normalize_fuel_type`. -/
def normalize_fuel_type (s : String) : Option String :=
  normCore (pyLower (pyStrip s))

/-! ## Regex scanning primitives

Each Python pattern in the source is embedded by a dedicated scanner.
Where a scanner resolves a quantifier deterministically, a comment states
why that choice coincides with the backtracking order of `re`. -/

/-- Literal match at the head of the input. -/
def stripPrefixL (pre cs : List Char) : Option (List Char) :=
  if pre.isPrefixOf cs then some (cs.drop pre.length) else none

/-- Greedy `\s*` immediately followed by a non-whitespace requirement is
deterministic: consuming fewer characters would leave a whitespace
character where a non-whitespace character is required. -/
def matchWS (cs : List Char) : List Char := cs.dropWhile isPyWS

/-- Match `[0-9]+\.[0-9]{3}` at the head of the input, returning the
integer digits, the three fraction digits and the rest.  The greedy
`[0-9]+` is deterministic here: any shorter digit run leaves a digit where
the dot is required. -/
def matchNumToken (cs : List Char) : Option (List Char × List Char × List Char) :=
  let ip := cs.takeWhile Char.isDigit
  if ip.isEmpty then none else
  match cs.drop ip.length with
  | '.' :: d1 :: d2 :: d3 :: rest =>
    if d1.isDigit && d2.isDigit && d3.isDigit then some (ip, [d1, d2, d3], rest) else none
  | _ => none

/-- Match `([0-9]+\.[0-9]{3})\s*EUR` at the head, returning the captured
numeric token and the rest after `EUR`. -/
def matchPriceEUR (cs : List Char) : Option (List Char × List Char) :=
  match matchNumToken cs with
  | none => none
  | some (ip, fr, rest) =>
    match stripPrefixL "EUR".toList (matchWS rest) with
    | none => none
    | some rest2 => some (ip ++ '.' :: fr, rest2)

/-- `re.finditer`: scan left to right, at each position attempt the match;
on success emit it and resume after the match (non-overlapping), otherwise
advance one character.  The fuel argument starts at the input length,
which suffices because every match of the patterns used here consumes at
least one character. -/
def findIterAux {α : Type} (m : List Char → Option (α × List Char)) : Nat → List Char → List α
  | 0, _ => []
  | _ + 1, [] => []
  | n + 1, c :: rest =>
    match m (c :: rest) with
    | some (a, after) => a :: findIterAux m n after
    | none => findIterAux m n rest

def findIter {α : Type} (m : List Char → Option (α × List Char)) (cs : List Char) : List α :=
  findIterAux m cs.length cs

/-- `re.search`: the match attempt at the leftmost succeeding position. -/
def searchAux {α : Type} (m : List Char → Option α) : Nat → List Char → Option α
  | 0, _ => none
  | _ + 1, [] => none
  | n + 1, c :: rest =>
    match m (c :: rest) with
    | some a => some a
    | none => searchAux m n rest

def reSearch {α : Type} (m : List Char → Option α) (cs : List Char) : Option α :=
  searchAux m cs.length cs

/-- Python `str.find`: index of the first occurrence, `None` for `-1`. -/
def findIdxFrom (pat : List Char) : List Char → Nat → Option Nat
  | [], i => if pat.isPrefixOf ([] : List Char) then some i else none
  | c :: rest, i =>
    if pat.isPrefixOf (c :: rest) then some i else findIdxFrom pat rest (i + 1)

/-- `re.split` on a single-character class / `str.split` on one character. -/
def splitOnPredAux (p : Char → Bool) : List Char → List Char → List (List Char)
  | [], acc => [acc.reverse]
  | c :: rest, acc =>
    if p c then acc.reverse :: splitOnPredAux p rest []
    else splitOnPredAux p rest (c :: acc)

def splitOnPred (p : Char → Bool) (cs : List Char) : List (List Char) :=
  splitOnPredAux p cs []

/-- Lazy `.*?` (which does not match a newline) followed by a
continuation: gap lengths are tried shortest first.  Called with fuel
`cs.length + 1` so that every suffix, including the empty one, is tried. -/
def lazyGapTo {α : Type} (k : List Char → Option α) : Nat → List Char → Option α
  | 0, _ => none
  | n + 1, cs =>
    match k cs with
    | some a => some a
    | none =>
      match cs with
      | [] => none
      | c :: rest => if c == '\n' then none else lazyGapTo k n rest

/-- Greedy `\s+` followed by a continuation: whitespace-run lengths are
tried longest first, at least one. -/
def wsPlusDesc {α : Type} (k : List Char → Option α) (cs : List Char) : Nat → Option α
  | 0 => none
  | j + 1 =>
    match k (cs.drop (j + 1)) with
    | some a => some a
    | none => wsPlusDesc k cs j

def wsPlus {α : Type} (k : List Char → Option α) (cs : List Char) : Option α :=
  wsPlusDesc k cs (cs.takeWhile isPyWS).length

/-- Greedy `[class]+` captured group followed by a continuation receiving
the captured characters and the rest: lengths are tried longest first. -/
def classDescAux {α : Type} (cs : List Char) (k : List Char → List Char → Option α) : Nat → Option α
  | 0 => none
  | j + 1 =>
    match k (cs.take (j + 1)) (cs.drop (j + 1)) with
    | some a => some a
    | none => classDescAux cs k j

def classGreedyDesc {α : Type} (cls : Char → Bool) (k : List Char → List Char → Option α) (cs : List Char) : Option α :=
  classDescAux cs k (cs.takeWhile cls).length

/-! ## Source adapter: Circle K (fuel_sources.py lines 118-155) -/

/-- The first `([0-9]+\.[0-9]{3})\s*EUR` match in a segment, returning the
captured token (the `re.search` inside `grab`). -/
def searchPriceTok (cs : List Char) : Option (List Char) :=
  reSearch (fun s => (matchPriceEUR s).map Prod.fst) cs

/-- fuel_sources.py lines 128-134: `grab(label, key)` - find the label,
take a 200-character window, and store the first price found there. -/
def grabCK (text : List Char) (label : String) (p : Prices) (key : String) : Prices :=
  match findIdxFrom label.toList text 0 with
  | none => p
  | some idx =>
    match searchPriceTok ((text.drop idx).take 200) with
    | some tok => setK p key (parse_eur (String.mk tok))
    | none => p

/-- fuel_sources.py lines 127-138: the chain-wide circlek prices dict,
built in the order a95, a98, diesel, lpg. -/
def circlekPrices (text : List Char) : Prices :=
  grabCK text "Autogāze"
    (grabCK text "Dmiles,"
      (grabCK text "98miles"
        (grabCK text "95miles" [] "a95") "a98") "diesel") "lpg"

/-- Continuation after the circlek address group: `\s+98miles`.
Deterministic: `98miles` starts with a non-whitespace character, so only
the maximal whitespace run can precede it. -/
def ckAfterGroup (cs : List Char) : Option Unit :=
  let ws := cs.takeWhile isPyWS
  if ws.isEmpty then none
  else (stripPrefixL "98miles".toList (cs.drop ws.length)).map (fun _ => ())

/-- Lazy group `(.*?)` before `\s+98miles`: the shortest newline-free
prefix whose remainder matches the continuation. -/
def ckGroup2 : Nat → List Char → List Char → Option (List Char)
  | 0, _, _ => none
  | n + 1, acc, cs =>
    match ckAfterGroup cs with
    | some _ => some acc.reverse
    | none =>
      match cs with
      | [] => none
      | c :: rest => if c == '\n' then none else ckGroup2 n (c :: acc) rest

/-- `.*?EUR\s+(.*?)\s+98miles` (the circlek address pattern after the
literal `95miles`), returning the captured group.  Priorities follow the
backtracking engine: first gap shortest first, then the `\s+` longest
first (the group may itself start with whitespace), then the group
shortest first. -/
def ckAddrTail (cs : List Char) : Option (List Char) :=
  lazyGapTo (fun r1 =>
    match stripPrefixL "EUR".toList r1 with
    | none => none
    | some r2 => wsPlus (fun r3 => ckGroup2 (r3.length + 1) [] r3) r2)
    (cs.length + 1) cs

/-- `re.search(r"95miles.*?EUR\s+(.*?)\s+98miles", text)`, group 1. -/
def ckAddrSearch (text : List Char) : Option (List Char) :=
  reSearch (fun cs =>
    match stripPrefixL "95miles".toList cs with
    | none => none
    | some rest => ckAddrTail rest) text

/-- fuel_sources.py lines 140-155: address extraction and the records,
each holding its own copy of the chain-wide prices dict. -/
def circlekParse (text : List Char) : List Station :=
  let prices := circlekPrices text
  let addresses :=
    match ckAddrSearch text with
    | none => []
    | some g1 =>
      ((splitOnPred (· == ',') g1).map pyStripList).filter (fun (a : List Char) => a.length > 3)
  (addresses.take 20).map (fun addr =>
    { name := "Circle K", address := String.mk addr, prices := prices,
      source := "circlek", timestamp := "" })

/-- fuel_sources.py lines 118-155: `fetch_circlek`; only the transport can
fail, and its failure yields the empty list. -/
def fetch_circlek (doc : Except Unit String) : List Station :=
  match doc with
  | .error _ => []
  | .ok t => circlekParse t.toList

/-! ## Source adapter: Neste (fuel_sources.py lines 157-187) -/

/-- Match `LIT1\s*LIT2\s*([\d]+\.[\d]{3})` at the head; both `\s*` are
deterministic because each is followed by a non-whitespace requirement. -/
def matchLitWsLitWsNum (lit1 lit2 : List Char) (cs : List Char) : Option (List Char) :=
  match stripPrefixL lit1 cs with
  | none => none
  | some r1 =>
    match stripPrefixL lit2 (matchWS r1) with
    | none => none
    | some r2 =>
      match matchNumToken (matchWS r2) with
      | some (ip, fr, _) => some (ip ++ '.' :: fr)
      | none => none

/-- Python's `if m: prices[key] = parse_eur(m.group(1))`: store the parsed
token when the search matched, else leave the dict unchanged. -/
def optSetTok (p : Prices) (key : String) (m : Option (List Char)) : Prices :=
  match m with
  | some tok => setK p key (parse_eur (String.mk tok))
  | none => p

/-- fuel_sources.py lines 165-171: the chain-wide neste prices dict. -/
def nestePrices (text : List Char) : Prices :=
  optSetTok (optSetTok (optSetTok []
    "a95" (reSearch (matchLitWsLitWsNum "Futura".toList "95".toList) text))
    "a98" (reSearch (matchLitWsLitWsNum "Futura".toList "98".toList) text))
    "diesel" (reSearch (matchLitWsLitWsNum "Futura".toList "D".toList) text)

/-- Match `\d\.\d{3}` at the head (group 1 of the neste address pattern;
its capture is unused by the source), returning the rest. -/
def matchD1Dot3 (cs : List Char) : Option (List Char) :=
  match cs with
  | d :: '.' :: a :: b :: c :: rest =>
    if d.isDigit && a.isDigit && b.isDigit && c.isDigit then some rest else none
  | _ => none

/-- The class `[A-Za-zĀ-ž0-9\.\- ,]` of the neste address group
(`Ā-ž` is the codepoint range U+0100 to U+017E). -/
def nesteAddrClass (c : Char) : Bool :=
  ('A' ≤ c && c ≤ 'Z') || ('a' ≤ c && c ≤ 'z') || ('Ā' ≤ c && c ≤ 'ž') ||
  c.isDigit || c == '.' || c == '-' || c == ' ' || c == ','

/-- Continuation after the neste address group: `\s+Neste Futura 98`,
deterministic as in `ckAfterGroup`. -/
def nesteAfterGroup (cs : List Char) : Option Unit :=
  let ws := cs.takeWhile isPyWS
  if ws.isEmpty then none
  else (stripPrefixL "Neste Futura 98".toList (cs.drop ws.length)).map (fun _ => ())

/-- One attempt, at the head of the input, of
`Futura\s*95.*?(\d\.\d{3}).*?\s+([A-Za-zĀ-ž0-9\.\- ,]+)\s+Neste Futura 98`,
returning captured group 2.  Priorities follow the backtracking engine:
gaps shortest first, `\s+` longest first, the class group longest first. -/
def nesteAddrAt (cs : List Char) : Option (List Char) :=
  match stripPrefixL "Futura".toList cs with
  | none => none
  | some r0 =>
    match stripPrefixL "95".toList (matchWS r0) with
    | none => none
    | some r1 =>
      lazyGapTo (fun r2 =>
        match matchD1Dot3 r2 with
        | none => none
        | some r3 =>
          lazyGapTo (fun r4 =>
            wsPlus (fun r5 =>
              classGreedyDesc nesteAddrClass
                (fun g rest => (nesteAfterGroup rest).map (fun _ => g)) r5) r4)
            (r3.length + 1) r3)
        (r1.length + 1) r1

/-- fuel_sources.py lines 172-187: address block extraction and records. -/
def nesteParse (text : List Char) : List Station :=
  let prices := nestePrices text
  let addrBlock :=
    match reSearch nesteAddrAt text with
    | none => []
    | some g =>
      ((splitOnPred (fun c => c == ',' || c == ';') g).map pyStripList).filter
        (fun (a : List Char) => a.length > 3)
  (addrBlock.take 20).map (fun addr =>
    { name := "Neste", address := String.mk addr, prices := prices,
      source := "neste", timestamp := "" })

/-- fuel_sources.py lines 157-187: `fetch_neste`. -/
def fetch_neste (doc : Except Unit String) : List Station :=
  match doc with
  | .error _ => []
  | .ok t => nesteParse t.toList

/-! ## Source adapter: Virši (fuel_sources.py lines 189-218) -/

/-- Match `LPG\s*([\d]+\.[\d]{3})` at the head, returning the token. -/
def matchLPGNum (cs : List Char) : Option (List Char) :=
  match stripPrefixL "LPG".toList cs with
  | none => none
  | some r =>
    match matchNumToken (matchWS r) with
    | some (ip, fr, _) => some (ip ++ '.' :: fr)
    | none => none

/-- fuel_sources.py lines 196-204: the chain-wide virsi prices dict. -/
def virsiPrices (text : List Char) : Prices :=
  optSetTok (optSetTok (optSetTok (optSetTok []
    "a95" (reSearch (matchLitWsLitWsNum "95E".toList "Gasoline".toList) text))
    "a98" (reSearch (matchLitWsLitWsNum "98E".toList "Gasoline".toList) text))
    "diesel" (reSearch (matchLitWsLitWsNum "Diesel".toList "fuel".toList) text))
    "lpg" (reSearch matchLPGNum text)

/-- The virsi address keyword alternatives in pattern order; the source
writes some of them via unicode escapes, producing duplicates. -/
def virsiKeywords : List (List Char) :=
  ["Brivibas".toList, "Kārļa Ulmaņa".toList, "Kārļa".toList,
   "Kārļa Ulmaņa".toList, "Kārļa Ulmaņa".toList, "Krasta".toList]

/-- One attempt of `(Brivibas|Kārļa Ulmaņa|Kārļa|...|Krasta)\s+[^\s].{0,60}`
at the head, returning the match and the rest.  `\s+` is deterministic
(the next atom `[^\s]` rejects whitespace); `.{0,60}` is greedy up to a
newline, the end of input, or 60 characters and is final; alternatives are
tried in pattern order, falling through to the next alternative when a
continuation fails, as the backtracking engine does. -/
def virsiAddrAt (cs : List Char) : Option (List Char × List Char) :=
  virsiKeywords.findSome? (fun kw =>
    match stripPrefixL kw cs with
    | none => none
    | some rest =>
      let ws := rest.takeWhile isPyWS
      if ws.isEmpty then none else
      match rest.drop ws.length with
      | [] => none
      | c :: tail =>
        let body := (tail.takeWhile (· != '\n')).take 60
        some (kw ++ ws ++ c :: body, tail.drop body.length))

/-- fuel_sources.py lines 205-218: address extraction and the records. -/
def virsiParse (text : List Char) : List Station :=
  let prices := virsiPrices text
  let addresses := findIter virsiAddrAt text
  (addresses.take 10).map (fun addr =>
    { name := "Virši", address := String.mk addr, prices := prices,
      source := "virsi", timestamp := "" })

/-- fuel_sources.py lines 189-218: `fetch_virsi`. -/
def fetch_virsi (doc : Except Unit String) : List Station :=
  match doc with
  | .error _ => []
  | .ok t => virsiParse t.toList

/-! ## Source adapter: Viada (fuel_sources.py lines 220-253) -/

/-- The pattern `prices[k] = val if k not in prices or val < prices[k]
else prices[k]` used three times by the viada heuristic: keep the minimum
seen value for the key.  A stored `None` value cannot occur in this local
dict (in Python the comparison would raise); that branch leaves the dict
unchanged. -/
def minMergeAt (p : Prices) (key : String) (val : ℚ) : Prices :=
  match lookupP p key with
  | none => setK p key (some val)
  | some none => p
  | some (some old) => if val < old then setK p key (some val) else p

/-- fuel_sources.py lines 229-239: one step of the viada price heuristic
for one matched token.  `parse_eur` cannot fail on a `digits.digits` token
(in Python a failure would raise a TypeError at the comparison); the
`none` branch leaves the dict unchanged.  Values below 1.00 are taken as
LPG, others as candidates for both a95 and diesel, keeping minima. -/
def viadaStep (p : Prices) (tok : List Char) : Prices :=
  match parse_eur (String.mk tok) with
  | none => p
  | some val =>
    if val < 1 then minMergeAt p "lpg" val
    else minMergeAt (minMergeAt p "a95" val) "diesel" val

/-- fuel_sources.py lines 227-239: the chain-wide viada prices dict. -/
def viadaPrices (text : List Char) : Prices :=
  (findIter matchPriceEUR text).foldl viadaStep []

/-- The viada address keyword alternatives in pattern order. -/
def viadaKeywords : List (List Char) :=
  ["Rīga".toList, "Jelgava".toList, "Liepāja".toList, "Daugavpils".toList,
   "Valdeķu".toList, "Saharova".toList, "Biķernieku".toList, "Astras".toList,
   "Dārzciema".toList]

/-- One attempt of `(Rīga|...)[^,]*[^\s]` at the head.  After the keyword,
the greedy `[^,]*` takes the maximal comma-free run; the following `[^\s]`
then matches the comma after the run (a comma is not whitespace), and if
the run instead reaches the end of the input the engine backtracks
`[^,]*`, which amounts to trimming trailing whitespace from the run.  At
any position at most one keyword can match (they pairwise differ within
their first two characters and none is a prefix of another). -/
def viadaAddrAt (cs : List Char) : Option (List Char × List Char) :=
  match viadaKeywords.findSome? (fun kw => (stripPrefixL kw cs).map (fun r => (kw, r))) with
  | none => none
  | some (kw, rest) =>
    let run := rest.takeWhile (· != ',')
    match rest.drop run.length with
    | ',' :: tail => some (kw ++ run ++ [','], tail)
    | _ :: _ => none
    | [] =>
      let t := rightTrimWS run
      if t.isEmpty then none else some (kw ++ t, rest.drop t.length)

/-- fuel_sources.py lines 240-253: address extraction and the records. -/
def viadaParse (text : List Char) : List Station :=
  let prices := viadaPrices text
  let addrs := findIter viadaAddrAt text
  (addrs.take 20).map (fun addr =>
    { name := "Viada", address := String.mk addr, prices := prices,
      source := "viada", timestamp := "" })

/-- fuel_sources.py lines 220-253: `fetch_viada`. -/
def fetch_viada (doc : Except Unit String) : List Station :=
  match doc with
  | .error _ => []
  | .ok t => viadaParse t.toList

/-! ## Source adapter: gas.didnt.work (fuel_sources.py lines 84-116) -/

def gdwDiacritics : List Char :=
  ['Ā', 'Č', 'Ē', 'Ģ', 'Ī', 'Ķ', 'Ļ', 'Ņ', 'Ō', 'Ŗ', 'Š', 'Ū', 'Ž']

/-- The character class `[A-ZĀČĒĢĪĶĻŅŌŖŠŪŽa-z0-9 .,'"\-]` of the
gas.didnt.work name/address group (uppercase diacritics only). -/
def gdwCls (c : Char) : Bool :=
  ('A' ≤ c && c ≤ 'Z') || ('a' ≤ c && c ≤ 'z') || c.isDigit ||
  c == ' ' || c == '.' || c == ',' || c == '\'' || c == '"' || c == '-' ||
  gdwDiacritics.contains c

/-- Match `[0-9]{4}-[0-9]{2}-[0-9]{2}` at the head (the optional date
group; exact counted repetitions leave no backtracking freedom). -/
def gdwDate (cs : List Char) : Option (List Char × List Char) :=
  match cs with
  | y1 :: y2 :: y3 :: y4 :: '-' :: m1 :: m2 :: '-' :: d1 :: d2 :: rest =>
    if [y1, y2, y3, y4, m1, m2, d1, d2].all Char.isDigit then
      some ([y1, y2, y3, y4, '-', m1, m2, '-', d1, d2], rest)
    else none
  | _ => none

/-- Match `\s*€/?l\.?\s*([0-9]{4}-[0-9]{2}-[0-9]{2})?` (the tail of the
gas.didnt.work pattern after the price), returning the captured date (or
`[]` when absent) and the rest after the whole match.  `\s*€` is
deterministic; `/?` can succeed only with `l` directly after it; the
optional `\.?`, the final `\s*` and the date group are greedy and nothing
follows them, so their first successful (greediest) choice stands. -/
def gdwEuroPart (cs : List Char) : Option (List Char × List Char) :=
  match cs.dropWhile isPyWS with
  | '€' :: r2 =>
    let r3 :=
      match r2 with
      | '/' :: 'l' :: t => some t
      | 'l' :: t => some t
      | _ => none
    match r3 with
    | none => none
    | some r3v =>
      let r4 := match r3v with | '.' :: t => t | _ => r3v
      let r5 := r4.dropWhile isPyWS
      match gdwDate r5 with
      | some (d, r6) => some (d, r6)
      | none => some ([], r5)
  | _ => none

/-- The three-digit fraction alternative `\.[0-9]{3}` followed by the
euro tail. -/
def gdwFrac3 (ip r2 : List Char) : Option (List Char × List Char × List Char) :=
  match r2 with
  | '.' :: a :: b :: c :: t =>
    if a.isDigit && b.isDigit && c.isDigit then
      (gdwEuroPart t).map (fun (dr : List Char × List Char) => (ip ++ '.' :: [a, b, c], dr.1, dr.2))
    else none
  | _ => none

/-- The two-digit fraction alternative `\.[0-9]{2}` followed by the euro
tail. -/
def gdwFrac2 (ip r2 : List Char) : Option (List Char × List Char × List Char) :=
  match r2 with
  | '.' :: a :: b :: t =>
    if a.isDigit && b.isDigit then
      (gdwEuroPart t).map (fun (dr : List Char × List Char) => (ip ++ '.' :: [a, b], dr.1, dr.2))
    else none
  | _ => none

/-- The no-fraction alternative: the euro tail directly. -/
def gdwFrac0 (ip r2 : List Char) : Option (List Char × List Char × List Char) :=
  (gdwEuroPart r2).map (fun (dr : List Char × List Char) => (ip, dr.1, dr.2))

/-- Match `[0-9]+(?:\.[0-9]{2,3})?` followed by the euro tail, trying the
fraction options in the greedy order: three digits, two digits, none.
The greedy `[0-9]+` is deterministic: a shorter run leaves a digit where
`.` or (after `\s*`) `€` is required. -/
def gdwNumAndRest (r1 : List Char) : Option (List Char × List Char × List Char) :=
  if (r1.takeWhile Char.isDigit).isEmpty then none else
  match gdwFrac3 (r1.takeWhile Char.isDigit) (r1.drop (r1.takeWhile Char.isDigit).length) with
  | some x => some x
  | none =>
    match gdwFrac2 (r1.takeWhile Char.isDigit) (r1.drop (r1.takeWhile Char.isDigit).length) with
    | some x => some x
    | none => gdwFrac0 (r1.takeWhile Char.isDigit) (r1.drop (r1.takeWhile Char.isDigit).length)

/-- The continuation tried at each stop of the lazy group: a comma, the
deterministic `\s*` (digits must follow), and the number/euro tail;
returns (group, numeric token, date, rest after the whole match). -/
def gdwAttempt (acc rest : List Char) : Option (List Char × List Char × List Char × List Char) :=
  match rest with
  | ',' :: r1 =>
    (gdwNumAndRest (r1.dropWhile isPyWS)).map
      (fun x => (acc.reverse, x.1, x.2.1, x.2.2))
  | _ => none

/-- The lazy group `([A-Z...]+?)` followed by `,\s*` and the number/euro
tail: group lengths are tried shortest first; the group consists of class
characters and stops at a comma whose continuation matches. -/
def gdwG1 : Nat → List Char → List Char → Option (List Char × List Char × List Char × List Char)
  | 0, _, _ => none
  | n + 1, acc, cs =>
    match cs with
    | [] => none
    | c :: rest =>
      if gdwCls c then
        match gdwAttempt (c :: acc) rest with
        | some x => some x
        | none => gdwG1 n (c :: acc) rest
      else none

/-- One attempt of the whole gas.didnt.work pattern at the head. -/
def gdwMatchAt (cs : List Char) : Option ((List Char × List Char × List Char) × List Char) :=
  (gdwG1 cs.length [] cs).map (fun x => ((x.1, x.2.1, x.2.2.1), x.2.2.2))

/-- fuel_sources.py lines 99-115: build one station from one match:
strip the group, split on commas into name and address, attach the price
to both a95 and diesel as candidates. -/
def gdwStation (m : List Char × List Char × List Char) : Station :=
  let full := pyStripList m.1
  let price := parse_eur (String.mk m.2.1)
  let parts := (splitOnPred (· == ',') full).map pyStripList
  let name := parts.headD []
  let address := if parts.length > 1 then List.intercalate ", ".toList parts.tail else []
  { name := String.mk name, address := String.mk address,
    prices := [("a95", price), ("diesel", price)],
    source := "gas.didnt.work", timestamp := String.mk m.2.2 }

def gdwParse (text : List Char) : List Station :=
  (findIter gdwMatchAt text).map gdwStation

/-- fuel_sources.py lines 84-116: `fetch_gas_didnt_work`. -/
def fetch_gas_didnt_work (doc : Except Unit String) : List Station :=
  match doc with
  | .error _ => []
  | .ok t => gdwParse t.toList

/-! ## Aggregator (fuel_sources.py lines 49-77) -/

def lookupU : List ((String × String) × Station) → (String × String) → Option Station
  | [], _ => none
  | (k, s) :: rest, key => if k = key then some s else lookupU rest key

/-- Replace the value at the first binding of `key` (dict update on a
present key); called only when the key is present. -/
def updateU : List ((String × String) × Station) → (String × String) → Station →
    List ((String × String) × Station)
  | [], _, _ => []
  | (k, s) :: rest, key, s' =>
    if k = key then (k, s') :: rest else (k, s) :: updateU rest key s'

/-- fuel_sources.py lines 69-74: merge one incoming prices entry into the
existing dict, skipping `None` values and keeping the lower price on
conflict.  (The `isinstance(v, (int, float))` guard is always satisfied
because embedded values are rationals.) -/
def mergePriceEntry (p : Prices) (kv : String × Option ℚ) : Prices :=
  match kv.2 with
  | none => p
  | some v =>
    match getFlat p kv.1 with
    | none => setK p kv.1 (some v)
    | some old => if v < old then setK p kv.1 (some v) else p

def mergeIntoPrices (p incoming : Prices) : Prices :=
  incoming.foldl mergePriceEntry p

/-- fuel_sources.py lines 65-76: one iteration of the dedup loop. -/
def dedupStep (u : List ((String × String) × Station)) (st : Station) :
    List ((String × String) × Station) :=
  let key := canonKey st
  match lookupU u key with
  | some ex => updateU u key { ex with prices := mergeIntoPrices ex.prices st.prices }
  | none => u ++ [(key, st)]

/-- fuel_sources.py lines 63-77: deduplicate by canonical key; the result
lists the merged records in dict insertion (first-seen) order. -/
def dedupStations (stations : List Station) : List Station :=
  (stations.foldl dedupStep []).map Prod.snd

/-- The value contributed by one gathered adapter outcome: an exception
contributes nothing (fuel_sources.py lines 59-62). -/
def okList : Except Unit (List Station) → List Station
  | .error _ => []
  | .ok l => l

/-- fuel_sources.py lines 58-62: concatenate the non-exception results. -/
def collectOk (results : List (Except Unit (List Station))) : List Station :=
  results.foldl (fun acc r => match r with | .error _ => acc | .ok l => acc ++ l) []

def fetchAllFrom (results : List (Except Unit (List Station))) : List Station :=
  dedupStations (collectOk results)

/-- fuel_sources.py lines 49-77: `fetch_all` over the five gathered
adapter outcomes (`asyncio.gather(..., return_exceptions=True)` hands each
adapter's exception or list to the loop); it is a total function, so no
adapter failure can raise out of it. -/
def fetch_all (r1 r2 r3 r4 r5 : Except Unit (List Station)) : List Station :=
  fetchAllFrom [r1, r2, r3, r4, r5]

/-! ## Ranking query (src/main.py lines 76-88) -/

/-- main.py lines 76-82: the (price, station) rows for one fuel, in
dataset iteration order, skipping records without that fuel. -/
def rowsOf (stations : List Station) (fuel : String) : List (ℚ × Station) :=
  stations.filterMap (fun st =>
    match getFlat st.prices fuel with
    | none => none
    | some price => some (price, st))

def rowLE (a b : ℚ × Station) : Prop := a.1 ≤ b.1

instance : DecidableRel rowLE := fun a b => inferInstanceAs (Decidable (a.1 ≤ b.1))

instance : IsTotal (ℚ × Station) rowLE := ⟨fun a b => le_total a.1 b.1⟩

instance : IsTrans (ℚ × Station) rowLE := ⟨fun _ _ _ => le_trans⟩

/-- main.py lines 87-88: sort the rows ascending by price - Python's sort
is stable, modelled by the stable `insertionSort` - and keep the first `n`. -/
def top_cmd_rows (stations : List Station) (fuel : String) (n : Nat) : List (ℚ × Station) :=
  (List.insertionSort rowLE (rowsOf stations fuel)).take n

/-! ## Heap-level model of the merge loop

The value-level model above cannot express aliasing, so the dedup loop is
modelled once more with the prices dict of each record held behind a
reference into a store; this makes the in-place writes of
`uniq[key]["prices"][k] = v` observable. -/

/-- A station record whose prices dict is a reference into a store. -/
structure HStation where
  name : String
  address : String
  pricesRef : Nat
  source : String
  timestamp : String

abbrev Store := Nat → Prices

def updStore (σ : Store) (r : Nat) (p : Prices) : Store :=
  fun n => if n = r then p else σ n

def canonKeyH (st : HStation) : String × String :=
  (pyLower (pyStrip st.name), pyLower (pyStrip st.address))

def lookupUH : List ((String × String) × HStation) → (String × String) → Option HStation
  | [], _ => none
  | (k, s) :: rest, key => if k = key then some s else lookupUH rest key

/-- One iteration of the dedup loop at the heap level: on a duplicate key
the merge writes through the prices reference held by the first-seen
record; on a new key the record itself (sharing its reference) is stored. -/
def dedupStepH (acc : List ((String × String) × HStation) × Store) (st : HStation) :
    List ((String × String) × HStation) × Store :=
  let key := canonKeyH st
  match lookupUH acc.1 key with
  | some ex =>
    (acc.1, updStore acc.2 ex.pricesRef (mergeIntoPrices (acc.2 ex.pricesRef) (acc.2 st.pricesRef)))
  | none => (acc.1 ++ [(key, st)], acc.2)

/-- fuel_sources.py lines 63-77 at the heap level: the merged records
together with the final store. -/
def fetch_all_H (stations : List HStation) (σ : Store) : List HStation × Store :=
  let r := stations.foldl dedupStepH ([], σ)
  (r.1.map Prod.snd, r.2)

/-! ## Association list lemmas -/

theorem lookupP_setK_self (p : Prices) (k : String) (v : Option ℚ) :
    lookupP (setK p k v) k = some v := by
  induction p with
  | nil => simp [setK, lookupP]
  | cons kv rest ih =>
    obtain ⟨k', v'⟩ := kv
    by_cases h : k' = k
    · simp [setK, h, lookupP]
    · simp [setK, h, lookupP, ih]

theorem lookupP_setK_ne (p : Prices) (k key : String) (v : Option ℚ) (h : k ≠ key) :
    lookupP (setK p k v) key = lookupP p key := by
  induction p with
  | nil => simp [setK, lookupP, h]
  | cons kv rest ih =>
    obtain ⟨k', v'⟩ := kv
    by_cases h' : k' = k
    · subst h'; simp [setK, lookupP, h]
    · simp [setK, h', lookupP, ih]

theorem getFlat_setK_self (p : Prices) (k : String) (v : Option ℚ) :
    getFlat (setK p k v) k = v := by
  simp [getFlat, lookupP_setK_self]

theorem getFlat_setK_ne (p : Prices) (k key : String) (v : Option ℚ) (h : k ≠ key) :
    getFlat (setK p k v) key = getFlat p key := by
  simp [getFlat, lookupP_setK_ne p k key v h]

theorem mem_setK (p : Prices) (k : String) (v : Option ℚ) (kv : String × Option ℚ)
    (h : kv ∈ setK p k v) : kv = (k, v) ∨ kv ∈ p := by
  induction p with
  | nil => simpa [setK] using h
  | cons kv' rest ih =>
    obtain ⟨k', v'⟩ := kv'
    by_cases h' : k' = k
    · simp only [setK, if_pos h'] at h
      rcases List.mem_cons.mp h with h2 | h2
      · exact Or.inl h2
      · exact Or.inr (List.mem_cons_of_mem _ h2)
    · simp only [setK, if_neg h'] at h
      rcases List.mem_cons.mp h with h2 | h2
      · exact Or.inr (by rw [h2]; exact List.mem_cons_self _ _)
      · rcases ih h2 with h3 | h3
        · exact Or.inl h3
        · exact Or.inr (List.mem_cons_of_mem _ h3)

theorem lookupP_eq_none_of_not_mem (p : Prices) (k : String)
    (h : k ∉ p.map Prod.fst) : lookupP p k = none := by
  induction p with
  | nil => rfl
  | cons kv rest ih =>
    obtain ⟨k0, v0⟩ := kv
    simp only [List.map_cons, List.mem_cons, not_or] at h
    have hne : k0 ≠ k := fun he => h.1 he.symm
    simp [lookupP, hne, ih h.2]

theorem lookupP_nodup_mem (p : Prices) (kv : String × Option ℚ)
    (hm : kv ∈ p) (hnd : (p.map Prod.fst).Nodup) : lookupP p kv.1 = some kv.2 := by
  induction p with
  | nil => simp at hm
  | cons hd rest ih =>
    simp only [List.map_cons, List.nodup_cons] at hnd
    rcases List.mem_cons.mp hm with h | h
    · subst h; simp [lookupP]
    · have hne : hd.1 ≠ kv.1 := by
        intro he
        exact hnd.1 (he ▸ List.mem_map_of_mem Prod.fst h)
      cases hd
      simp [lookupP, hne, ih h hnd.2]

/-! ## The per-fuel merge rule, and the merge loop lemmas -/

/-- The per-fuel merge rule as the spec words it (spec section 4.3):
adopt the incoming price when the existing record lacks that fuel, keep
the lower of the two when both have one. -/
def specMergeVal (old incoming : Option ℚ) : Option ℚ :=
  match incoming with
  | none => old
  | some q =>
    match old with
    | none => some q
    | some a => some (min a q)

theorem getFlat_mergePriceEntry_self (p : Prices) (k : String) (v : Option ℚ) :
    getFlat (mergePriceEntry p (k, v)) k = specMergeVal (getFlat p k) v := by
  cases v with
  | none => rfl
  | some q =>
    simp only [mergePriceEntry, specMergeVal]
    cases hg : getFlat p k with
    | none => simp [getFlat_setK_self]
    | some a =>
      by_cases hlt : q < a
      · simp [hlt, getFlat_setK_self, min_eq_right (le_of_lt hlt)]
      · simp [hlt, hg, min_eq_left (le_of_not_lt hlt)]

theorem getFlat_mergePriceEntry_ne (p : Prices) (kv : String × Option ℚ) (k : String)
    (h : kv.1 ≠ k) : getFlat (mergePriceEntry p kv) k = getFlat p k := by
  obtain ⟨k0, v0⟩ := kv
  cases v0 with
  | none => rfl
  | some q =>
    simp only [mergePriceEntry]
    cases getFlat p k0 with
    | none => exact getFlat_setK_ne p k0 k (some q) h
    | some a =>
      by_cases hlt : q < a
      · simp only [if_pos hlt]; exact getFlat_setK_ne p k0 k (some q) h
      · simp [hlt]

theorem getFlat_mergeIntoPrices (incoming : Prices) : ∀ (p : Prices) (k : String),
    (incoming.map Prod.fst).Nodup →
    getFlat (mergeIntoPrices p incoming) k = specMergeVal (getFlat p k) (getFlat incoming k) := by
  induction incoming with
  | nil =>
    intro p k _
    simp [mergeIntoPrices, getFlat, lookupP, specMergeVal]
  | cons kv rest ih =>
    intro p k hnd
    simp only [List.map_cons, List.nodup_cons] at hnd
    have hstep : mergeIntoPrices p (kv :: rest) = mergeIntoPrices (mergePriceEntry p kv) rest := rfl
    rw [hstep, ih _ k hnd.2]
    obtain ⟨k0, v0⟩ := kv
    by_cases hk : k0 = k
    · subst hk
      have hr : getFlat rest k0 = none := by
        simp [getFlat, lookupP_eq_none_of_not_mem rest k0 hnd.1]
      rw [hr, getFlat_mergePriceEntry_self]
      have hc : getFlat ((k0, v0) :: rest) k0 = v0 := by simp [getFlat, lookupP]
      rw [hc]
      cases specMergeVal (getFlat p k0) v0 <;> rfl
    · rw [getFlat_mergePriceEntry_ne p (k0, v0) k hk]
      have hc : getFlat ((k0, v0) :: rest) k = getFlat rest k := by
        simp [getFlat, lookupP, hk]
      rw [hc]

theorem mergeIntoPrices_no_change : ∀ (incoming p : Prices),
    (∀ kv ∈ incoming, ∀ q : ℚ, kv.2 = some q → ∃ a, getFlat p kv.1 = some a ∧ a ≤ q) →
    mergeIntoPrices p incoming = p := by
  intro incoming
  induction incoming with
  | nil => intro p _; rfl
  | cons kv rest ih =>
    intro p h
    obtain ⟨k0, v0⟩ := kv
    have hstep : mergeIntoPrices p ((k0, v0) :: rest) = mergeIntoPrices (mergePriceEntry p (k0, v0)) rest := rfl
    have hone : mergePriceEntry p (k0, v0) = p := by
      cases v0 with
      | none => rfl
      | some q =>
        obtain ⟨a, ha, haq⟩ := h (k0, some q) (List.mem_cons_self _ _) q rfl
        simp only [mergePriceEntry, ha]
        rw [if_neg (not_lt.mpr haq)]
    rw [hstep, hone]
    exact ih p (fun kv hm q hq => h kv (List.mem_cons_of_mem _ hm) q hq)

theorem mergeIntoPrices_self (p : Prices) (hnd : (p.map Prod.fst).Nodup) :
    mergeIntoPrices p p = p := by
  apply mergeIntoPrices_no_change
  intro kv hm q hq
  refine ⟨q, ?_, le_refl q⟩
  have := lookupP_nodup_mem p kv hm hnd
  simp [getFlat, this, hq]

theorem mergeIntoPrices_twice (P Q : Prices) (hnd : (Q.map Prod.fst).Nodup) :
    mergeIntoPrices (mergeIntoPrices P Q) Q = mergeIntoPrices P Q := by
  apply mergeIntoPrices_no_change
  intro kv hm q hq
  have hg := getFlat_mergeIntoPrices Q P kv.1 hnd
  have hlq : getFlat Q kv.1 = some q := by
    simp [getFlat, lookupP_nodup_mem Q kv hm hnd, hq]
  rw [hlq] at hg
  cases hP : getFlat P kv.1 with
  | none => exact ⟨q, by rw [hg, hP]; rfl, le_refl q⟩
  | some a => exact ⟨min a q, by rw [hg, hP]; rfl, min_le_right a q⟩

/-! ## Dedup dictionary lemmas -/

theorem lookupU_append_none (u l : List ((String × String) × Station)) (key : String × String)
    (h : lookupU u key = none) : lookupU (u ++ l) key = lookupU l key := by
  induction u with
  | nil => rfl
  | cons kv rest ih =>
    obtain ⟨k, s⟩ := kv
    by_cases hk : k = key
    · simp [lookupU, hk] at h
    · simp only [lookupU, if_neg hk] at h ⊢
      exact ih h

theorem lookupU_mem (u : List ((String × String) × Station)) (key : String × String)
    (ex : Station) (h : lookupU u key = some ex) : (key, ex) ∈ u := by
  induction u with
  | nil => simp [lookupU] at h
  | cons kv rest ih =>
    obtain ⟨k, s⟩ := kv
    by_cases hk : k = key
    · simp only [lookupU, if_pos hk] at h
      injection h with h2
      rw [← hk, ← h2]
      exact List.mem_cons_self _ _
    · simp only [lookupU, if_neg hk] at h
      exact List.mem_cons_of_mem _ (ih h)

theorem lookupU_updateU_self (u : List ((String × String) × Station)) (key : String × String)
    (ex s' : Station) (h : lookupU u key = some ex) :
    lookupU (updateU u key s') key = some s' := by
  induction u with
  | nil => simp [lookupU] at h
  | cons kv rest ih =>
    obtain ⟨k, s⟩ := kv
    by_cases hk : k = key
    · simp [updateU, if_pos hk, lookupU, hk]
    · simp only [lookupU, if_neg hk] at h
      simp only [updateU, if_neg hk, lookupU, if_neg hk]
      exact ih h

theorem updateU_self (u : List ((String × String) × Station)) (key : String × String)
    (s : Station) (h : lookupU u key = some s) : updateU u key s = u := by
  induction u with
  | nil => simp [lookupU] at h
  | cons kv rest ih =>
    obtain ⟨k, s0⟩ := kv
    by_cases hk : k = key
    · simp only [lookupU, if_pos hk] at h
      injection h with h2
      simp [updateU, if_pos hk, h2]
    · simp only [lookupU, if_neg hk] at h
      simp [updateU, if_neg hk, ih h]

theorem mem_updateU (u : List ((String × String) × Station)) (key : String × String)
    (s' : Station) (kv : (String × String) × Station) (h : kv ∈ updateU u key s') :
    kv = (key, s') ∨ kv ∈ u := by
  induction u with
  | nil => simp [updateU] at h
  | cons kv0 rest ih =>
    obtain ⟨k, s0⟩ := kv0
    by_cases hk : k = key
    · subst hk
      simp only [updateU, if_pos rfl] at h
      rcases List.mem_cons.mp h with h2 | h2
      · exact Or.inl h2
      · exact Or.inr (List.mem_cons_of_mem _ h2)
    · simp only [updateU, if_neg hk] at h
      rcases List.mem_cons.mp h with h2 | h2
      · exact Or.inr (by rw [h2]; exact List.mem_cons_self _ _)
      · rcases ih h2 with h3 | h3
        · exact Or.inl h3
        · exact Or.inr (List.mem_cons_of_mem _ h3)

theorem map_fst_updateU (u : List ((String × String) × Station)) (key : String × String)
    (s' : Station) : (updateU u key s').map Prod.fst = u.map Prod.fst := by
  induction u with
  | nil => rfl
  | cons kv rest ih =>
    obtain ⟨k, s0⟩ := kv
    by_cases hk : k = key
    · simp [updateU, if_pos hk]
    · simp [updateU, if_neg hk, ih]

/-! ## C1: the pairwise merge of equal-key records -/

/-- C1.  Two records with the same canonical key are collapsed by the
fetch-all dedup loop into a single record that keeps the first record's
name, address, source and timestamp, and whose price for each fuel is the
incoming price where the first record lacks it and the lower of the two
where both have one.  (The Nodup hypothesis states that the incoming
prices dict has unique keys, as every Python dict does.) -/
theorem c1_merge_pair (r1 r2 : Station) (hkey : canonKey r1 = canonKey r2)
    (hnd : (r2.prices.map Prod.fst).Nodup) :
    ∃ m, dedupStations [r1, r2] = [m] ∧ m.name = r1.name ∧ m.address = r1.address ∧
      m.source = r1.source ∧ m.timestamp = r1.timestamp ∧
      ∀ fuel, getFlat m.prices fuel = specMergeVal (getFlat r1.prices fuel) (getFlat r2.prices fuel) := by
  refine ⟨{ r1 with prices := mergeIntoPrices r1.prices r2.prices }, ?_, rfl, rfl, rfl, rfl, ?_⟩
  · show ((dedupStep (dedupStep [] r1) r2).map Prod.snd) = _
    have h1 : dedupStep [] r1 = [(canonKey r1, r1)] := rfl
    rw [h1]
    show (dedupStep [(canonKey r1, r1)] r2).map Prod.snd = _
    simp [dedupStep, lookupU, hkey, updateU]
  · intro fuel
    exact getFlat_mergeIntoPrices r2.prices r1.prices fuel hnd

/-- Witness for C1 at a concrete pair of records whose keys agree up to
case and surrounding whitespace. -/
theorem c1_merge_pair_witness :
    ∃ m, dedupStations
        [⟨"Viada", "Rīga, Krasta 1", [("a95", some (3/2 : ℚ))], "s1", ""⟩,
         ⟨" viada ", "rīga, krasta 1 ", [("a95", some (29/20 : ℚ)), ("lpg", some (7/10 : ℚ))], "s2", "d"⟩] = [m] ∧
      m.name = "Viada" ∧ m.address = "Rīga, Krasta 1" ∧ m.source = "s1" ∧ m.timestamp = "" ∧
      ∀ fuel, getFlat m.prices fuel =
        specMergeVal (getFlat [("a95", some (3/2 : ℚ))] fuel)
          (getFlat [("a95", some (29/20 : ℚ)), ("lpg", some (7/10 : ℚ))] fuel) :=
  c1_merge_pair _ _ (by decide) (by decide)

/-! ## C6: idempotence of the merge step -/

/-- C6.  Merging the same record (whose prices dict has unique keys, as
every Python dict does) into the dataset twice yields the same dataset as
merging it once. -/
theorem c6_merge_idempotent (u : List ((String × String) × Station)) (st : Station)
    (hnd : (st.prices.map Prod.fst).Nodup) :
    dedupStep (dedupStep u st) st = dedupStep u st := by
  cases hcase : lookupU u (canonKey st) with
  | none =>
    have h1 : dedupStep u st = u ++ [(canonKey st, st)] := by
      simp [dedupStep, hcase]
    have hlook : lookupU (u ++ [(canonKey st, st)]) (canonKey st) = some st := by
      rw [lookupU_append_none u _ _ hcase]
      simp [lookupU]
    rw [h1]
    show dedupStep (u ++ [(canonKey st, st)]) st = _
    have hm : mergeIntoPrices st.prices st.prices = st.prices := mergeIntoPrices_self st.prices hnd
    simp only [dedupStep, hlook, hm]
    exact updateU_self _ _ _ hlook
  | some ex =>
    have h1 : dedupStep u st = updateU u (canonKey st) { ex with prices := mergeIntoPrices ex.prices st.prices } := by
      simp [dedupStep, hcase]
    have hlook : lookupU (updateU u (canonKey st) { ex with prices := mergeIntoPrices ex.prices st.prices }) (canonKey st)
        = some { ex with prices := mergeIntoPrices ex.prices st.prices } :=
      lookupU_updateU_self u _ ex _ hcase
    rw [h1]
    show dedupStep (updateU u (canonKey st) _) st = _
    simp only [dedupStep, hlook]
    have hm : mergeIntoPrices (mergeIntoPrices ex.prices st.prices) st.prices
        = mergeIntoPrices ex.prices st.prices := mergeIntoPrices_twice ex.prices st.prices hnd
    simp only [hm]
    exact updateU_self _ _ _ hlook

/-- Witness for C6 at a concrete dataset state and record. -/
theorem c6_merge_idempotent_witness :
    dedupStep (dedupStep
        [(canonKey ⟨"A", "X", [("a95", some (3/2 : ℚ))], "s", ""⟩, ⟨"A", "X", [("a95", some (3/2 : ℚ))], "s", ""⟩)]
        ⟨"A", "X", [("a95", some (7/5 : ℚ)), ("diesel", some 1)], "t", ""⟩)
        ⟨"A", "X", [("a95", some (7/5 : ℚ)), ("diesel", some 1)], "t", ""⟩ =
      dedupStep
        [(canonKey ⟨"A", "X", [("a95", some (3/2 : ℚ))], "s", ""⟩, ⟨"A", "X", [("a95", some (3/2 : ℚ))], "s", ""⟩)]
        ⟨"A", "X", [("a95", some (7/5 : ℚ)), ("diesel", some 1)], "t", ""⟩ :=
  c6_merge_idempotent _ _ (by decide)

/-! ## C8: the price parser -/

/-- C8.  `parse_eur` maps the comma-decimal string to the exact decimal
value 1.523, and an unparseable string yields no price rather than zero or
an exception (in the embedding `parse_eur` is a total function into
`Option`). -/
theorem c8_parse_eur :
    parse_eur "1,523" = some (1523 / 1000 : ℚ) ∧ parse_eur "abc" = none := by
  constructor <;> decide

/-! ## C5: adapters absorb failures -/

/-- C5.  Every adapter is embedded as a total function of its transport
outcome (so no document shape can raise out of it), and a transport
failure yields the empty list. -/
theorem c5_adapters_absorb_failure : ∀ e : Unit,
    fetch_gas_didnt_work (.error e) = [] ∧ fetch_circlek (.error e) = [] ∧
    fetch_neste (.error e) = [] ∧ fetch_virsi (.error e) = [] ∧
    fetch_viada (.error e) = [] :=
  fun _ => ⟨rfl, rfl, rfl, rfl, rfl⟩

/-! ## Sorting lemmas for the ranking query -/

theorem filter_orderedInsert_key (p : ℚ) (x : ℚ × Station) (l : List (ℚ × Station)) :
    (List.orderedInsert rowLE x l).filter (fun y => decide (y.1 = p)) =
      if x.1 = p then x :: l.filter (fun y => decide (y.1 = p))
      else l.filter (fun y => decide (y.1 = p)) := by
  induction l with
  | nil =>
    by_cases hx : x.1 = p <;> simp [List.orderedInsert, List.filter, hx]
  | cons b l ih =>
    by_cases hr : rowLE x b
    · rw [List.orderedInsert_of_le _ _ hr]
      by_cases hx : x.1 = p <;> simp [List.filter, hx]
    · have hb : b.1 < x.1 := lt_of_not_le hr
      simp only [List.orderedInsert, if_neg hr]
      by_cases hx : x.1 = p
      · have hbp : ¬ b.1 = p := by rw [← hx]; exact ne_of_lt hb
        simp [List.filter, hbp, ih, hx]
      · by_cases hbp : b.1 = p <;> simp [List.filter, hbp, ih, hx]

theorem filter_insertionSort_key (p : ℚ) (l : List (ℚ × Station)) :
    (List.insertionSort rowLE l).filter (fun y => decide (y.1 = p)) =
      l.filter (fun y => decide (y.1 = p)) := by
  induction l with
  | nil => rfl
  | cons x l ih =>
    show (List.orderedInsert rowLE x (List.insertionSort rowLE l)).filter _ = _
    rw [filter_orderedInsert_key]
    by_cases hx : x.1 = p <;> simp [List.filter, hx, ih]

/-! ## C2: the top-N query -/

/-- C2.  For every dataset, fuel and positive `n`: the query returns only
rows whose station has the requested fuel priced (with the row's price
being exactly that price), returns at most `n` rows, is non-decreasing by
price, is a prefix of a stable sort of the filtered rows (rows with equal
prices keep dataset iteration order), and is empty when no record has the
fuel priced. -/
theorem c2_top_query (stations : List Station) (fuel : String) (n : Nat) (_hn : 0 < n) :
    (∀ x ∈ top_cmd_rows stations fuel n, getFlat x.2.prices fuel = some x.1) ∧
    (top_cmd_rows stations fuel n).length ≤ n ∧
    List.Pairwise rowLE (top_cmd_rows stations fuel n) ∧
    (top_cmd_rows stations fuel n = (List.insertionSort rowLE (rowsOf stations fuel)).take n ∧
      ∀ p : ℚ, (List.insertionSort rowLE (rowsOf stations fuel)).filter (fun y => decide (y.1 = p)) =
        (rowsOf stations fuel).filter (fun y => decide (y.1 = p))) ∧
    ((∀ st ∈ stations, getFlat st.prices fuel = none) → top_cmd_rows stations fuel n = []) := by
  refine ⟨?_, ?_, ?_, ⟨rfl, fun p => filter_insertionSort_key p _⟩, ?_⟩
  · intro x hx
    have hx1 : x ∈ List.insertionSort rowLE (rowsOf stations fuel) :=
      (List.take_sublist n _).subset hx
    have hx2 : x ∈ rowsOf stations fuel := (List.mem_insertionSort rowLE).mp hx1
    obtain ⟨st, _, hst⟩ := List.mem_filterMap.mp hx2
    cases hg : getFlat st.prices fuel with
    | none => rw [hg] at hst; exact absurd hst (by simp)
    | some price =>
      rw [hg] at hst
      simp only [Option.some.injEq] at hst
      rw [← hst]
      exact hg
  · simp [top_cmd_rows]
  · exact (List.sorted_insertionSort rowLE (rowsOf stations fuel)).sublist (List.take_sublist n _)
  · intro h
    have hrows : rowsOf stations fuel = [] := by
      apply List.filterMap_eq_nil_iff.mpr
      intro st hst
      rw [h st hst]
    simp [top_cmd_rows, hrows]

/-- Witness for C2 at the spec's own example dataset. -/
theorem c2_top_query_witness :
    top_cmd_rows
        [⟨"A", "X", [("a95", some (3/2 : ℚ))], "s", ""⟩,
         ⟨"B", "Y", [("a95", some (7/5 : ℚ))], "s", ""⟩] "a95" 1 =
      (List.insertionSort rowLE (rowsOf
        [⟨"A", "X", [("a95", some (3/2 : ℚ))], "s", ""⟩,
         ⟨"B", "Y", [("a95", some (7/5 : ℚ))], "s", ""⟩] "a95")).take 1 :=
  ((c2_top_query
      [⟨"A", "X", [("a95", some (3/2 : ℚ))], "s", ""⟩,
       ⟨"B", "Y", [("a95", some (7/5 : ℚ))], "s", ""⟩] "a95" 1 (by decide)).2.2.2.1).1

/-! ## C3: the fuel vocabulary normalizer -/

/-- C3.  A string whose stripped-and-lowered form lies in a fuel's alias
set normalizes to that fuel's canonical id; a string whose
stripped-and-lowered form lies in no alias set, in neither loose set, and
is not itself a canonical id normalizes to none. -/
theorem c3_normalize (s : String) (f : String) (al : List String) :
    ((f, al) ∈ FUEL_ALIASES → pyLower (pyStrip s) ∈ al → normalize_fuel_type s = some f) ∧
    ((∀ kv ∈ FUEL_ALIASES, pyLower (pyStrip s) ∉ kv.2) →
      pyLower (pyStrip s) ∉ LOOSE_A95 → pyLower (pyStrip s) ∉ LOOSE_A98 →
      pyLower (pyStrip s) ∉ SUPPORTED_FUELS → normalize_fuel_type s = none) := by
  constructor
  · intro h1 h2
    show normCore (pyLower (pyStrip s)) = some f
    generalize pyLower (pyStrip s) = t at h2 ⊢
    simp only [FUEL_ALIASES, List.mem_cons, List.not_mem_nil, or_false] at h1
    rcases h1 with h1 | h1 | h1 | h1 <;>
      (injection h1 with hf ha; subst hf; subst ha) <;>
      fin_cases h2 <;> decide
  · intro h1 h2 h3 h4
    show normCore (pyLower (pyStrip s)) = none
    generalize pyLower (pyStrip s) = t at h1 h2 h3 h4 ⊢
    have hf : List.find? (fun kv => decide (t ∈ kv.2)) FUEL_ALIASES = none := by
      apply List.find?_eq_none.mpr
      intro kv hkv
      simpa using h1 kv hkv
    simp [normCore, hf, h2, h3, h4]

/-- Witness for C3: a padded upper-case alias normalizes, and an unknown
label does not. -/
theorem c3_normalize_witness :
    normalize_fuel_type " A95 " = some "a95" ∧ normalize_fuel_type "kerosene" = none :=
  ⟨(c3_normalize " A95 " "a95" ["a95", "95", "95e", "95miles", "futura 95", "a-95", "eurosuper 95"]).1
      (by decide) (by decide),
   (c3_normalize "kerosene" "" []).2 (by decide) (by decide) (by decide) (by decide)⟩

/-! ## C4: aggregator failure isolation -/

def canonKeys (l : List Station) : List (String × String) := l.map canonKey

theorem collectOk_eq_flatten (results : List (Except Unit (List Station))) :
    collectOk results = (results.map okList).flatten := by
  have aux : ∀ (rs : List (Except Unit (List Station))) (acc : List Station),
      rs.foldl (fun acc r => match r with | .error _ => acc | .ok l => acc ++ l) acc
        = acc ++ (rs.map okList).flatten := by
    intro rs
    induction rs with
    | nil => intro acc; simp
    | cons r rest ih =>
      intro acc
      cases r with
      | error e => simpa [okList] using ih acc
      | ok l => simp [okList, ih (acc ++ l)]
  simpa [collectOk] using aux results []

/-- The dedup dictionary invariant: every entry is stored under the
canonical key of its station. -/
def WFU (u : List ((String × String) × Station)) : Prop :=
  ∀ kv ∈ u, canonKey kv.2 = kv.1

theorem WFU_dedupStep (u : List ((String × String) × Station)) (st : Station)
    (h : WFU u) : WFU (dedupStep u st) := by
  cases hc : lookupU u (canonKey st) with
  | none =>
    have hd : dedupStep u st = u ++ [(canonKey st, st)] := by simp [dedupStep, hc]
    rw [hd]
    intro kv hm
    rcases List.mem_append.mp hm with hm | hm
    · exact h kv hm
    · rw [List.mem_singleton.mp hm]
  | some ex =>
    have hd : dedupStep u st
        = updateU u (canonKey st) { ex with prices := mergeIntoPrices ex.prices st.prices } := by
      simp [dedupStep, hc]
    rw [hd]
    intro kv hm
    rcases mem_updateU u _ _ kv hm with hm | hm
    · rw [hm]
      show canonKey ex = canonKey st
      exact h (canonKey st, ex) (lookupU_mem u _ ex hc)
    · exact h kv hm

theorem WFU_foldl (l : List Station) : ∀ u, WFU u → WFU (l.foldl dedupStep u) := by
  induction l with
  | nil => intro u h; exact h
  | cons st rest ih => intro u h; exact ih (dedupStep u st) (WFU_dedupStep u st h)

theorem map_fst_dedupStep (u : List ((String × String) × Station)) (st : Station)
    (k : String × String) :
    k ∈ (dedupStep u st).map Prod.fst ↔ k ∈ u.map Prod.fst ∨ k = canonKey st := by
  cases hc : lookupU u (canonKey st) with
  | none =>
    have hd : dedupStep u st = u ++ [(canonKey st, st)] := by simp [dedupStep, hc]
    rw [hd]
    simp
  | some ex =>
    have hd : dedupStep u st
        = updateU u (canonKey st) { ex with prices := mergeIntoPrices ex.prices st.prices } := by
      simp [dedupStep, hc]
    rw [hd, map_fst_updateU]
    constructor
    · exact Or.inl
    · rintro (hk | rfl)
      · exact hk
      · exact List.mem_map_of_mem Prod.fst (lookupU_mem u _ ex hc)

theorem mem_keys_foldl (l : List Station) : ∀ u, WFU u → ∀ k,
    (k ∈ (l.foldl dedupStep u).map Prod.fst ↔ k ∈ u.map Prod.fst ∨ k ∈ canonKeys l) := by
  induction l with
  | nil => intro u _ k; simp [canonKeys]
  | cons st rest ih =>
    intro u hwf k
    rw [List.foldl_cons, ih (dedupStep u st) (WFU_dedupStep u st hwf) k,
      map_fst_dedupStep u st k]
    simp [canonKeys, or_assoc]

theorem canonKeys_map_snd (u : List ((String × String) × Station)) (h : WFU u) :
    canonKeys (u.map Prod.snd) = u.map Prod.fst := by
  induction u with
  | nil => rfl
  | cons kv rest ih =>
    simp only [canonKeys, List.map_cons, List.map_map] at ih ⊢
    rw [show canonKey kv.2 = kv.1 from h kv (List.mem_cons_self _ _),
      ih (fun kv hm => h kv (List.mem_cons_of_mem _ hm))]

theorem mem_canonKeys_dedupStations (l : List Station) (k : String × String) :
    k ∈ canonKeys (dedupStations l) ↔ k ∈ canonKeys l := by
  have hwf : WFU ([] : List ((String × String) × Station)) := fun kv hm => by simp at hm
  have h := mem_keys_foldl l [] hwf k
  rw [dedupStations, canonKeys_map_snd _ (WFU_foldl l [] hwf)]
  simpa using h

theorem keys_shrink_of_empty (pre post : List (Except Unit (List Station)))
    (x r : Except Unit (List Station)) (hx : okList x = []) (k : String × String)
    (h : k ∈ canonKeys (fetchAllFrom (pre ++ x :: post))) :
    k ∈ canonKeys (fetchAllFrom (pre ++ r :: post)) := by
  rw [fetchAllFrom, mem_canonKeys_dedupStations] at h ⊢
  rw [collectOk_eq_flatten] at h ⊢
  simp only [List.map_append, List.map_cons, List.flatten_append, List.flatten_cons, hx,
    List.nil_append, canonKeys, List.map_append, List.mem_append] at h ⊢
  rcases h with h | h
  · exact Or.inl h
  · exact Or.inr (Or.inr h)

/-- C4.  Replacing any adapter outcome by an exception or by an empty list
only shrinks the set of canonical keys of the merged dataset, and when
every adapter outcome is an exception or an empty list the aggregation
returns the empty list (it is a total function, so it cannot raise). -/
theorem c4_aggregator_isolation (r1 r2 r3 r4 r5 : Except Unit (List Station))
    (pre post : List (Except Unit (List Station))) (r : Except Unit (List Station))
    (k : String × String) :
    (k ∈ canonKeys (fetchAllFrom (pre ++ Except.error () :: post)) →
      k ∈ canonKeys (fetchAllFrom (pre ++ r :: post))) ∧
    (k ∈ canonKeys (fetchAllFrom (pre ++ Except.ok [] :: post)) →
      k ∈ canonKeys (fetchAllFrom (pre ++ r :: post))) ∧
    ((∀ x ∈ [r1, r2, r3, r4, r5], okList x = []) → fetch_all r1 r2 r3 r4 r5 = []) := by
  refine ⟨keys_shrink_of_empty pre post (Except.error ()) r rfl k,
    keys_shrink_of_empty pre post (Except.ok []) r rfl k, ?_⟩
  intro h
  have hc : collectOk [r1, r2, r3, r4, r5] = [] := by
    rw [collectOk_eq_flatten]
    simp [h r1 (by simp), h r2 (by simp), h r3 (by simp), h r4 (by simp), h r5 (by simp)]
  rw [fetch_all, fetchAllFrom, hc]
  rfl

/-- Demo records used by concrete witnesses. -/
def demoA : Station := ⟨"A", "X", [("a95", some (3/2 : ℚ))], "s", ""⟩

def demoB : Station := ⟨"B", "Y", [("a95", some (7/5 : ℚ))], "s", ""⟩

/-- Witness for C4: a key surviving one adapter's failure survives its
success, and five failed or empty outcomes aggregate to the empty list. -/
theorem c4_aggregator_isolation_witness :
    canonKey demoA ∈ canonKeys (fetchAllFrom [Except.ok [demoA], Except.ok [demoB]]) ∧
    fetch_all (.error ()) (.error ()) (.error ()) (.ok []) (.error ()) = [] :=
  ⟨(c4_aggregator_isolation (.ok [demoA]) (.ok [demoB]) (.error ()) (.error ()) (.error ())
      [Except.ok [demoA]] [] (Except.ok [demoB]) (canonKey demoA)).1 (by decide),
   (c4_aggregator_isolation (.error ()) (.error ()) (.error ()) (.ok []) (.error ())
      [] [] (.error ()) ("", "")).2.2 (by decide)⟩

/-! ## C7: nonnegativity of parsed prices -/

theorem pyFloatCore_nonneg (cs : List Char) (q : ℚ) (h : pyFloatCore cs = some q) : 0 ≤ q := by
  simp only [pyFloatCore] at h
  split at h
  · split at h
    · exact absurd h (by simp)
    · injection h with h2
      rw [← h2]
      positivity
  · split at h
    · injection h with h2
      rw [← h2]
      positivity
    · exact absurd h (by simp)
  · exact absurd h (by simp)

theorem roundHalfEven_nonneg (q : ℚ) (h : 0 ≤ q) : 0 ≤ roundHalfEven q := by
  have hf : 0 ≤ ⌊q⌋ := Int.le_floor.mpr (by exact_mod_cast h)
  simp only [roundHalfEven]
  split_ifs <;> omega

theorem round3_nonneg (q : ℚ) (h : 0 ≤ q) : 0 ≤ round3 q := by
  unfold round3
  have h1 : 0 ≤ roundHalfEven (q * 1000) := roundHalfEven_nonneg _ (by positivity)
  have h2 : (0 : ℚ) ≤ (roundHalfEven (q * 1000) : ℚ) := by exact_mod_cast h1
  positivity

theorem pyFloat_nonneg (cs : List Char) (hm : '-' ∉ cs) (q : ℚ)
    (h : pyFloat cs = some q) : 0 ≤ q := by
  cases cs with
  | nil =>
    rw [show pyFloat [] = pyFloatCore [] from rfl] at h
    exact pyFloatCore_nonneg _ _ h
  | cons c rest =>
    have hcne : ¬ c = '-' := by
      intro he
      subst he
      exact hm (List.mem_cons_self _ _)
    rw [show pyFloat (c :: rest)
        = if c = '-' then (pyFloatCore rest).map (fun q => -q)
          else if c = '+' then pyFloatCore rest else pyFloatCore (c :: rest) from rfl,
      if_neg hcne] at h
    split at h
    · exact pyFloatCore_nonneg _ _ h
    · exact pyFloatCore_nonneg _ _ h

theorem mem_of_mem_pyStripList (cs : List Char) (c : Char) (h : c ∈ pyStripList cs) : c ∈ cs := by
  unfold pyStripList rightTrimWS at h
  rw [List.mem_reverse] at h
  have h2 := (List.dropWhile_sublist _).subset h
  rw [List.mem_reverse] at h2
  exact (List.dropWhile_sublist _).subset h2

theorem parse_eur_nonneg (cs : List Char) (hm : '-' ∉ cs) (q : ℚ)
    (h : parse_eur (String.mk cs) = some q) : 0 ≤ q := by
  unfold parse_eur at h
  have htl : (String.mk cs).toList = cs := rfl
  rw [htl] at h
  have hm2 : '-' ∉ pyStripList (cs.map (fun c => if c == ',' then '.' else c)) := by
    intro hmem
    obtain ⟨c, hc, he⟩ := List.mem_map.mp (mem_of_mem_pyStripList _ _ hmem)
    by_cases h3 : c = ','
    · rw [h3] at he; exact absurd he (by decide)
    · rw [if_neg (by simpa using h3)] at he
      exact hm (he ▸ hc)
  obtain ⟨q0, hq0, hr⟩ := Option.map_eq_some'.mp h
  rw [← hr]
  exact round3_nonneg q0 (pyFloat_nonneg _ hm2 q0 hq0)

theorem parse_eur_getD_nonneg (tok : List Char) (hm : '-' ∉ tok) :
    0 ≤ (parse_eur (String.mk tok)).getD 0 := by
  cases hp : parse_eur (String.mk tok) with
  | none => simp
  | some q => simpa using parse_eur_nonneg tok hm q hp

/-! ## C7: shape of the scanned numeric tokens -/

theorem no_minus_token (ip fr : List Char) (hip : ∀ c ∈ ip, c.isDigit = true)
    (hfr : ∀ c ∈ fr, c.isDigit = true) : '-' ∉ ip ++ '.' :: fr := by
  intro h
  rcases List.mem_append.mp h with h | h
  · exact absurd (hip _ h) (by decide)
  · rcases List.mem_cons.mp h with h | h
    · exact absurd h (by decide)
    · exact absurd (hfr _ h) (by decide)

theorem matchNumToken_shape (cs ip fr rest : List Char)
    (h : matchNumToken cs = some (ip, fr, rest)) :
    (∀ c ∈ ip, c.isDigit = true) ∧ (∀ c ∈ fr, c.isDigit = true) := by
  simp only [matchNumToken] at h
  split at h
  · exact absurd h (by simp)
  · split at h
    · split at h
      · rename_i d1 d2 d3 rest2 hdig
        simp only [Option.some.injEq, Prod.mk.injEq] at h
        obtain ⟨h1, h2, _⟩ := h
        constructor
        · intro c hc
          rw [← h1] at hc
          exact List.mem_takeWhile_imp hc
        · intro c hc
          rw [← h2] at hc
          simp only [Bool.and_eq_true] at hdig
          rcases List.mem_cons.mp hc with rfl | hc
          · exact hdig.1.1
          rcases List.mem_cons.mp hc with rfl | hc
          · exact hdig.1.2
          rcases List.mem_cons.mp hc with rfl | hc
          · exact hdig.2
          · simp at hc
      · exact absurd h (by simp)
    · exact absurd h (by simp)

theorem matchNumToken_no_minus (cs ip fr rest : List Char)
    (h : matchNumToken cs = some (ip, fr, rest)) : '-' ∉ ip ++ '.' :: fr := by
  obtain ⟨hip, hfr⟩ := matchNumToken_shape cs ip fr rest h
  exact no_minus_token ip fr hip hfr

theorem matchPriceEUR_no_minus (cs tok rest : List Char)
    (h : matchPriceEUR cs = some (tok, rest)) : '-' ∉ tok := by
  unfold matchPriceEUR at h
  cases hn : matchNumToken cs with
  | none => rw [hn] at h; exact absurd h (by simp)
  | some x =>
    obtain ⟨ip, fr, r⟩ := x
    rw [hn] at h
    dsimp only at h
    cases hs : stripPrefixL "EUR".toList (matchWS r) with
    | none => rw [hs] at h; exact absurd h (by simp)
    | some r2 =>
      rw [hs] at h
      dsimp only at h
      injection h with h2
      injection h2 with h3 h4
      rw [← h3]
      exact matchNumToken_no_minus cs ip fr r hn

theorem matchLitWsLitWsNum_no_minus (lit1 lit2 cs tok : List Char)
    (h : matchLitWsLitWsNum lit1 lit2 cs = some tok) : '-' ∉ tok := by
  unfold matchLitWsLitWsNum at h
  cases h1 : stripPrefixL lit1 cs with
  | none => rw [h1] at h; exact absurd h (by simp)
  | some r1 =>
    rw [h1] at h
    dsimp only at h
    cases h2 : stripPrefixL lit2 (matchWS r1) with
    | none => rw [h2] at h; exact absurd h (by simp)
    | some r2 =>
      rw [h2] at h
      dsimp only at h
      cases h3 : matchNumToken (matchWS r2) with
      | none => rw [h3] at h; exact absurd h (by simp)
      | some x =>
        obtain ⟨ip, fr, r⟩ := x
        rw [h3] at h
        dsimp only at h
        injection h with h4
        rw [← h4]
        exact matchNumToken_no_minus _ ip fr r h3

theorem matchLPGNum_no_minus (cs tok : List Char) (h : matchLPGNum cs = some tok) :
    '-' ∉ tok := by
  unfold matchLPGNum at h
  cases h1 : stripPrefixL "LPG".toList cs with
  | none => rw [h1] at h; exact absurd h (by simp)
  | some r =>
    rw [h1] at h
    dsimp only at h
    cases h3 : matchNumToken (matchWS r) with
    | none => rw [h3] at h; exact absurd h (by simp)
    | some x =>
      obtain ⟨ip, fr, r2⟩ := x
      rw [h3] at h
      dsimp only at h
      injection h with h4
      rw [← h4]
      exact matchNumToken_no_minus _ ip fr r2 h3

theorem gdwFrac3_no_minus (ip r2 tok d rest : List Char)
    (hip : ∀ c ∈ ip, c.isDigit = true) (h : gdwFrac3 ip r2 = some (tok, d, rest)) :
    '-' ∉ tok := by
  unfold gdwFrac3 at h
  split at h
  · split at h
    · rename_i a b c t hdig
      obtain ⟨dr, _, hx⟩ := Option.map_eq_some'.mp h
      injection hx with hx1 hx2
      rw [← hx1]
      simp only [Bool.and_eq_true] at hdig
      refine no_minus_token ip [a, b, c] hip ?_
      intro cc hcc
      rcases List.mem_cons.mp hcc with rfl | hcc
      · exact hdig.1.1
      rcases List.mem_cons.mp hcc with rfl | hcc
      · exact hdig.1.2
      rcases List.mem_cons.mp hcc with rfl | hcc
      · exact hdig.2
      · simp at hcc
    · exact absurd h (by simp)
  · exact absurd h (by simp)

theorem gdwFrac2_no_minus (ip r2 tok d rest : List Char)
    (hip : ∀ c ∈ ip, c.isDigit = true) (h : gdwFrac2 ip r2 = some (tok, d, rest)) :
    '-' ∉ tok := by
  unfold gdwFrac2 at h
  split at h
  · split at h
    · rename_i a b t hdig
      obtain ⟨dr, _, hx⟩ := Option.map_eq_some'.mp h
      injection hx with hx1 hx2
      rw [← hx1]
      simp only [Bool.and_eq_true] at hdig
      refine no_minus_token ip [a, b] hip ?_
      intro cc hcc
      rcases List.mem_cons.mp hcc with rfl | hcc
      · exact hdig.1
      rcases List.mem_cons.mp hcc with rfl | hcc
      · exact hdig.2
      · simp at hcc
    · exact absurd h (by simp)
  · exact absurd h (by simp)

theorem gdwFrac0_no_minus (ip r2 tok d rest : List Char)
    (hip : ∀ c ∈ ip, c.isDigit = true) (h : gdwFrac0 ip r2 = some (tok, d, rest)) :
    '-' ∉ tok := by
  obtain ⟨dr, _, hx⟩ := Option.map_eq_some'.mp h
  injection hx with hx1 hx2
  rw [← hx1]
  intro hc
  exact absurd (hip _ hc) (by decide)

theorem gdwNumAndRest_no_minus (r1 tok d rest : List Char)
    (h : gdwNumAndRest r1 = some (tok, d, rest)) : '-' ∉ tok := by
  have hip : ∀ c ∈ r1.takeWhile Char.isDigit, c.isDigit = true :=
    fun c hc => List.mem_takeWhile_imp hc
  unfold gdwNumAndRest at h
  split at h
  · exact absurd h (by simp)
  · split at h
    · rename_i x h3
      injection h with h2
      rw [h2] at h3
      exact gdwFrac3_no_minus _ _ tok d rest hip h3
    · split at h
      · rename_i x h2eq
        injection h with h2
        rw [h2] at h2eq
        exact gdwFrac2_no_minus _ _ tok d rest hip h2eq
      · exact gdwFrac0_no_minus _ _ tok d rest hip h

theorem gdwAttempt_no_minus (acc rest : List Char)
    (x : List Char × List Char × List Char × List Char)
    (h : gdwAttempt acc rest = some x) : '-' ∉ x.2.1 := by
  unfold gdwAttempt at h
  split at h
  · obtain ⟨z, hz, hx⟩ := Option.map_eq_some'.mp h
    obtain ⟨ztok, zd, zrest⟩ := z
    rw [← hx]
    exact gdwNumAndRest_no_minus _ ztok zd zrest hz
  · exact absurd h (by simp)

theorem gdwG1_no_minus : ∀ (fuel : Nat) (acc cs : List Char)
    (x : List Char × List Char × List Char × List Char), gdwG1 fuel acc cs = some x →
    '-' ∉ x.2.1 := by
  intro fuel
  induction fuel with
  | zero => intro acc cs x h; exact absurd h (by simp [gdwG1])
  | succ n ih =>
    intro acc cs x h
    cases cs with
    | nil => exact absurd h (by simp [gdwG1])
    | cons c rest =>
      by_cases hcls : gdwCls c = true
      · simp only [gdwG1, if_pos hcls] at h
        cases ha : gdwAttempt (c :: acc) rest with
        | some y =>
          rw [ha] at h
          injection h with h2
          rw [← h2]
          exact gdwAttempt_no_minus _ _ y ha
        | none =>
          rw [ha] at h
          exact ih (c :: acc) rest x h
      · simp [gdwG1, hcls] at h

theorem gdwMatchAt_no_minus (cs : List Char)
    (m : List Char × List Char × List Char) (rest : List Char)
    (h : gdwMatchAt cs = some (m, rest)) : '-' ∉ m.2.1 := by
  obtain ⟨x, hx, hm⟩ := Option.map_eq_some'.mp h
  have := gdwG1_no_minus cs.length [] cs x hx
  injection hm with hm1 hm2
  rw [← hm1]
  exact this

/-! ## Propagation of match properties through the scan drivers -/

theorem findIterAux_prop {α : Type} (m : List Char → Option (α × List Char)) (P : α → Prop)
    (hm : ∀ cs a rest, m cs = some (a, rest) → P a) :
    ∀ (fuel : Nat) (cs : List Char), ∀ a ∈ findIterAux m fuel cs, P a := by
  intro fuel
  induction fuel with
  | zero => intro cs a ha; simp [findIterAux] at ha
  | succ n ih =>
    intro cs a ha
    cases cs with
    | nil => simp [findIterAux] at ha
    | cons c rest =>
      cases hmc : m (c :: rest) with
      | some pr =>
        rw [show findIterAux m (n + 1) (c :: rest)
            = pr.1 :: findIterAux m n pr.2 from by rw [findIterAux, hmc]] at ha
        rcases List.mem_cons.mp ha with rfl | ha
        · exact hm (c :: rest) pr.1 pr.2 hmc
        · exact ih pr.2 a ha
      | none =>
        rw [show findIterAux m (n + 1) (c :: rest) = findIterAux m n rest from by
          rw [findIterAux, hmc]] at ha
        exact ih rest a ha

theorem findIter_prop {α : Type} (m : List Char → Option (α × List Char)) (P : α → Prop)
    (hm : ∀ cs a rest, m cs = some (a, rest) → P a) (cs : List Char) :
    ∀ a ∈ findIter m cs, P a :=
  findIterAux_prop m P hm cs.length cs

theorem searchAux_prop {α : Type} (m : List Char → Option α) (P : α → Prop)
    (hm : ∀ cs a, m cs = some a → P a) :
    ∀ (fuel : Nat) (cs : List Char) (a : α), searchAux m fuel cs = some a → P a := by
  intro fuel
  induction fuel with
  | zero => intro cs a h; exact absurd h (by simp [searchAux])
  | succ n ih =>
    intro cs a h
    cases cs with
    | nil => exact absurd h (by simp [searchAux])
    | cons c rest =>
      cases hmc : m (c :: rest) with
      | some b =>
        rw [show searchAux m (n + 1) (c :: rest) = some b from by rw [searchAux, hmc]] at h
        injection h with h2
        exact h2 ▸ hm (c :: rest) b hmc
      | none =>
        rw [show searchAux m (n + 1) (c :: rest) = searchAux m n rest from by
          rw [searchAux, hmc]] at h
        exact ih rest a h

theorem reSearch_prop {α : Type} (m : List Char → Option α) (P : α → Prop)
    (hm : ∀ cs a, m cs = some a → P a) (cs : List Char) (a : α)
    (h : reSearch m cs = some a) : P a :=
  searchAux_prop m P hm cs.length cs a h

/-! ## C7: the prices invariant -/

/-- The spec's prices invariant, weakened from strictly positive to
nonnegative (see the counterexample below): keys come from the canonical
fuel set and present values are nonnegative. -/
def GoodPrices (p : Prices) : Prop :=
  ∀ kv ∈ p, kv.1 ∈ SUPPORTED_FUELS ∧ 0 ≤ kv.2.getD 0

def GoodStation (st : Station) : Prop := GoodPrices st.prices

theorem GoodPrices_nil : GoodPrices [] := fun kv hm => absurd hm (by simp)

theorem GoodPrices_setK (p : Prices) (k : String) (v : Option ℚ) (hp : GoodPrices p)
    (hk : k ∈ SUPPORTED_FUELS) (hv : 0 ≤ v.getD 0) : GoodPrices (setK p k v) := by
  intro kv hm
  rcases mem_setK p k v kv hm with h | h
  · rw [h]; exact ⟨hk, hv⟩
  · exact hp kv h

/-- Storing the result of `parse_eur` on a minus-free token keeps the
invariant. -/
theorem GoodPrices_setK_parse (p : Prices) (k : String) (tok : List Char)
    (hp : GoodPrices p) (hk : k ∈ SUPPORTED_FUELS) (ht : '-' ∉ tok) :
    GoodPrices (setK p k (parse_eur (String.mk tok))) :=
  GoodPrices_setK p k _ hp hk (parse_eur_getD_nonneg tok ht)

theorem searchPriceTok_no_minus (cs tok : List Char) (h : searchPriceTok cs = some tok) :
    '-' ∉ tok := by
  refine reSearch_prop _ (fun tok => '-' ∉ tok) ?_ cs tok h
  intro cs2 a ha
  obtain ⟨pr, hpr, hfst⟩ := Option.map_eq_some'.mp ha
  obtain ⟨t, r⟩ := pr
  rw [← hfst]
  exact matchPriceEUR_no_minus cs2 t r hpr

theorem GoodPrices_grabCK (text : List Char) (label : String) (p : Prices) (key : String)
    (hp : GoodPrices p) (hk : key ∈ SUPPORTED_FUELS) :
    GoodPrices (grabCK text label p key) := by
  unfold grabCK
  cases hfi : findIdxFrom label.toList text 0 with
  | none => exact hp
  | some idx =>
    dsimp only
    cases hs : searchPriceTok ((text.drop idx).take 200) with
    | none => exact hp
    | some tok =>
      dsimp only
      exact GoodPrices_setK_parse p key tok hp hk (searchPriceTok_no_minus _ tok hs)

theorem GoodPrices_circlekPrices (text : List Char) : GoodPrices (circlekPrices text) := by
  unfold circlekPrices
  refine GoodPrices_grabCK _ _ _ _ ?_ (by decide)
  refine GoodPrices_grabCK _ _ _ _ ?_ (by decide)
  refine GoodPrices_grabCK _ _ _ _ ?_ (by decide)
  exact GoodPrices_grabCK _ _ _ _ GoodPrices_nil (by decide)

theorem GoodPrices_optSetTok (p : Prices) (key : String) (m : Option (List Char))
    (hp : GoodPrices p) (hk : key ∈ SUPPORTED_FUELS)
    (hm : ∀ tok, m = some tok → '-' ∉ tok) : GoodPrices (optSetTok p key m) := by
  cases hmc : m with
  | none => exact hp
  | some tok => exact GoodPrices_setK_parse p key tok hp hk (hm tok hmc)

theorem reSearch_lit_no_minus (l1 l2 : List Char) (text : List Char) :
    ∀ tok, reSearch (matchLitWsLitWsNum l1 l2) text = some tok → '-' ∉ tok :=
  fun tok h => reSearch_prop _ (fun t => '-' ∉ t)
    (fun cs a ha => matchLitWsLitWsNum_no_minus l1 l2 cs a ha) text tok h

theorem GoodPrices_nestePrices (text : List Char) : GoodPrices (nestePrices text) := by
  unfold nestePrices
  refine GoodPrices_optSetTok _ _ _ ?_ (by decide) (reSearch_lit_no_minus _ _ text)
  refine GoodPrices_optSetTok _ _ _ ?_ (by decide) (reSearch_lit_no_minus _ _ text)
  exact GoodPrices_optSetTok _ _ _ GoodPrices_nil (by decide) (reSearch_lit_no_minus _ _ text)

theorem GoodPrices_virsiPrices (text : List Char) : GoodPrices (virsiPrices text) := by
  unfold virsiPrices
  refine GoodPrices_optSetTok _ _ _ ?_ (by decide) ?_
  · refine GoodPrices_optSetTok _ _ _ ?_ (by decide) (reSearch_lit_no_minus _ _ text)
    refine GoodPrices_optSetTok _ _ _ ?_ (by decide) (reSearch_lit_no_minus _ _ text)
    exact GoodPrices_optSetTok _ _ _ GoodPrices_nil (by decide) (reSearch_lit_no_minus _ _ text)
  · exact fun tok h => reSearch_prop _ (fun t => '-' ∉ t)
      (fun cs a ha => matchLPGNum_no_minus cs a ha) text tok h

theorem GoodPrices_minMergeAt (p : Prices) (key : String) (val : ℚ) (hp : GoodPrices p)
    (hk : key ∈ SUPPORTED_FUELS) (hv : 0 ≤ val) : GoodPrices (minMergeAt p key val) := by
  have hs : GoodPrices (setK p key (some val)) :=
    GoodPrices_setK p key (some val) hp hk (by simpa using hv)
  unfold minMergeAt
  split
  · exact hs
  · exact hp
  · split
    · exact hs
    · exact hp

theorem GoodPrices_viadaStep (p : Prices) (tok : List Char) (hp : GoodPrices p)
    (ht : '-' ∉ tok) : GoodPrices (viadaStep p tok) := by
  unfold viadaStep
  cases hpe : parse_eur (String.mk tok) with
  | none => exact hp
  | some val =>
    dsimp only
    have hv : (0 : ℚ) ≤ val := parse_eur_nonneg tok ht val hpe
    split
    · exact GoodPrices_minMergeAt p "lpg" val hp (by decide) hv
    · exact GoodPrices_minMergeAt _ "diesel" val
        (GoodPrices_minMergeAt p "a95" val hp (by decide) hv) (by decide) hv

theorem GoodPrices_viadaPrices (text : List Char) : GoodPrices (viadaPrices text) := by
  unfold viadaPrices
  have htoks : ∀ tok ∈ findIter matchPriceEUR text, '-' ∉ tok :=
    findIter_prop matchPriceEUR (fun t => '-' ∉ t)
      (fun cs a rest h => matchPriceEUR_no_minus cs a rest h) text
  have haux : ∀ (toks : List (List Char)) (p : Prices), GoodPrices p →
      (∀ tok ∈ toks, '-' ∉ tok) → GoodPrices (toks.foldl viadaStep p) := by
    intro toks
    induction toks with
    | nil => intro p hp _; exact hp
    | cons t rest ih =>
      intro p hp htl
      exact ih (viadaStep p t) (GoodPrices_viadaStep p t hp (htl t (List.mem_cons_self _ _)))
        (fun tok hm => htl tok (List.mem_cons_of_mem _ hm))
  exact haux _ [] GoodPrices_nil htoks

theorem GoodStation_fetch_circlek (doc : Except Unit String) :
    ∀ st ∈ fetch_circlek doc, GoodStation st := by
  cases doc with
  | error e => simp [fetch_circlek]
  | ok t =>
    intro st hm
    simp only [fetch_circlek, circlekParse, List.mem_map] at hm
    obtain ⟨addr, _, hst⟩ := hm
    rw [← hst]
    exact GoodPrices_circlekPrices t.toList

theorem GoodStation_fetch_neste (doc : Except Unit String) :
    ∀ st ∈ fetch_neste doc, GoodStation st := by
  cases doc with
  | error e => simp [fetch_neste]
  | ok t =>
    intro st hm
    simp only [fetch_neste, nesteParse, List.mem_map] at hm
    obtain ⟨addr, _, hst⟩ := hm
    rw [← hst]
    exact GoodPrices_nestePrices t.toList

theorem GoodStation_fetch_virsi (doc : Except Unit String) :
    ∀ st ∈ fetch_virsi doc, GoodStation st := by
  cases doc with
  | error e => simp [fetch_virsi]
  | ok t =>
    intro st hm
    simp only [fetch_virsi, virsiParse, List.mem_map] at hm
    obtain ⟨addr, _, hst⟩ := hm
    rw [← hst]
    exact GoodPrices_virsiPrices t.toList

theorem GoodStation_fetch_viada (doc : Except Unit String) :
    ∀ st ∈ fetch_viada doc, GoodStation st := by
  cases doc with
  | error e => simp [fetch_viada]
  | ok t =>
    intro st hm
    simp only [fetch_viada, viadaParse, List.mem_map] at hm
    obtain ⟨addr, _, hst⟩ := hm
    rw [← hst]
    exact GoodPrices_viadaPrices t.toList

theorem GoodStation_gdwStation (m : List Char × List Char × List Char)
    (ht : '-' ∉ m.2.1) : GoodStation (gdwStation m) := by
  intro kv hm
  have hval : 0 ≤ (parse_eur (String.mk m.2.1)).getD 0 := parse_eur_getD_nonneg m.2.1 ht
  rcases List.mem_cons.mp hm with rfl | hm
  · exact ⟨show "a95" ∈ SUPPORTED_FUELS by decide, hval⟩
  rcases List.mem_cons.mp hm with rfl | hm
  · exact ⟨show "diesel" ∈ SUPPORTED_FUELS by decide, hval⟩
  · simp at hm

theorem GoodStation_fetch_gas_didnt_work (doc : Except Unit String) :
    ∀ st ∈ fetch_gas_didnt_work doc, GoodStation st := by
  cases doc with
  | error e => simp [fetch_gas_didnt_work]
  | ok t =>
    intro st hm
    simp only [fetch_gas_didnt_work, gdwParse, List.mem_map] at hm
    obtain ⟨m, hmem, hst⟩ := hm
    rw [← hst]
    refine GoodStation_gdwStation m ?_
    exact findIter_prop gdwMatchAt (fun m => '-' ∉ m.2.1)
      (fun cs a rest h => gdwMatchAt_no_minus cs a rest h) t.toList m hmem

/-! ## C7: the merge preserves the invariant -/

theorem GoodPrices_mergePriceEntry (p : Prices) (kv : String × Option ℚ)
    (hp : GoodPrices p) (hk : kv.1 ∈ SUPPORTED_FUELS) (hv : 0 ≤ kv.2.getD 0) :
    GoodPrices (mergePriceEntry p kv) := by
  obtain ⟨k0, v0⟩ := kv
  cases v0 with
  | none => exact hp
  | some v =>
    have hv2 : (0 : ℚ) ≤ v := by simpa using hv
    unfold mergePriceEntry
    dsimp only
    split
    · exact GoodPrices_setK p k0 (some v) hp hk (by simpa using hv2)
    · split
      · exact GoodPrices_setK p k0 (some v) hp hk (by simpa using hv2)
      · exact hp

theorem GoodPrices_mergeIntoPrices (incoming : Prices) : ∀ p : Prices, GoodPrices p →
    GoodPrices incoming → GoodPrices (mergeIntoPrices p incoming) := by
  induction incoming with
  | nil => intro p hp _; exact hp
  | cons kv rest ih =>
    intro p hp hinc
    have hkv := hinc kv (List.mem_cons_self _ _)
    exact ih (mergePriceEntry p kv)
      (GoodPrices_mergePriceEntry p kv hp hkv.1 hkv.2)
      (fun kv2 hm => hinc kv2 (List.mem_cons_of_mem _ hm))

def GoodU (u : List ((String × String) × Station)) : Prop :=
  ∀ kv ∈ u, GoodStation kv.2

theorem GoodU_dedupStep (u : List ((String × String) × Station)) (st : Station)
    (hu : GoodU u) (hst : GoodStation st) : GoodU (dedupStep u st) := by
  cases hc : lookupU u (canonKey st) with
  | none =>
    have hd : dedupStep u st = u ++ [(canonKey st, st)] := by simp [dedupStep, hc]
    rw [hd]
    intro kv hm
    rcases List.mem_append.mp hm with hm | hm
    · exact hu kv hm
    · rw [List.mem_singleton.mp hm]; exact hst
  | some ex =>
    have hd : dedupStep u st
        = updateU u (canonKey st) { ex with prices := mergeIntoPrices ex.prices st.prices } := by
      simp [dedupStep, hc]
    rw [hd]
    intro kv hm
    rcases mem_updateU u _ _ kv hm with hm | hm
    · rw [hm]
      show GoodPrices (mergeIntoPrices ex.prices st.prices)
      exact GoodPrices_mergeIntoPrices st.prices ex.prices
        (hu (canonKey st, ex) (lookupU_mem u _ ex hc)) hst
    · exact hu kv hm

theorem GoodU_foldl (l : List Station) : ∀ u, GoodU u → (∀ st ∈ l, GoodStation st) →
    GoodU (l.foldl dedupStep u) := by
  induction l with
  | nil => intro u hu _; exact hu
  | cons st rest ih =>
    intro u hu hl
    exact ih (dedupStep u st) (GoodU_dedupStep u st hu (hl st (List.mem_cons_self _ _)))
      (fun st2 hm => hl st2 (List.mem_cons_of_mem _ hm))

theorem GoodStation_dedupStations (l : List Station) (hl : ∀ st ∈ l, GoodStation st) :
    ∀ st ∈ dedupStations l, GoodStation st := by
  intro st hm
  have hu : GoodU (l.foldl dedupStep []) :=
    GoodU_foldl l [] (fun kv hm2 => absurd hm2 (by simp)) hl
  obtain ⟨kv, hkv, hsnd⟩ := List.mem_map.mp hm
  rw [← hsnd]
  exact hu kv hkv

/-- C7 (amended).  Every record produced by any of the five adapters or by
the aggregator's merge over their outputs has prices whose keys lie in the
canonical fuel set and whose present values are nonnegative.  (The
original claim's strict positivity fails: see the counterexample.) -/
theorem c7_prices_invariant (t1 t2 t3 t4 t5 : Except Unit String) :
    (∀ st ∈ fetch_gas_didnt_work t1, GoodStation st) ∧
    (∀ st ∈ fetch_circlek t2, GoodStation st) ∧
    (∀ st ∈ fetch_neste t3, GoodStation st) ∧
    (∀ st ∈ fetch_virsi t4, GoodStation st) ∧
    (∀ st ∈ fetch_viada t5, GoodStation st) ∧
    (∀ st ∈ fetch_all (.ok (fetch_gas_didnt_work t1)) (.ok (fetch_circlek t2))
        (.ok (fetch_neste t3)) (.ok (fetch_virsi t4)) (.ok (fetch_viada t5)),
      GoodStation st) := by
  refine ⟨GoodStation_fetch_gas_didnt_work t1, GoodStation_fetch_circlek t2,
    GoodStation_fetch_neste t3, GoodStation_fetch_virsi t4, GoodStation_fetch_viada t5, ?_⟩
  intro st hm
  refine GoodStation_dedupStations _ ?_ st hm
  intro st2 hm2
  rw [collectOk_eq_flatten] at hm2
  simp only [List.map_cons, List.map_nil, List.flatten, okList, List.mem_append,
    List.append_nil, List.mem_flatten] at hm2
  rcases hm2 with h | h | h | h | h
  · exact GoodStation_fetch_gas_didnt_work t1 st2 h
  · exact GoodStation_fetch_circlek t2 st2 h
  · exact GoodStation_fetch_neste t3 st2 h
  · exact GoodStation_fetch_virsi t4 st2 h
  · exact GoodStation_fetch_viada t5 st2 h

/-- Counterexample to C7 as stated: the page text `0.000 EUR Rīga x`
makes the viada adapter emit a record whose lpg price is zero, so prices
are not strictly positive. -/
theorem c7_counterexample :
    ¬ (∀ st ∈ fetch_viada (Except.ok "0.000 EUR Rīga x"), ∀ kv ∈ st.prices,
        ∀ q : ℚ, kv.2 = some q → 0 < q) := by
  intro h
  have h0 := h ⟨"Viada", "Rīga x", [("lpg", some 0)], "viada", ""⟩ (by decide)
    ("lpg", some 0) (by decide) 0 rfl
  exact lt_irrefl 0 h0

/-- Witness for C7 (amended) at a concrete document, covering the record
the counterexample exhibits. -/
theorem c7_prices_invariant_witness :
    GoodStation ⟨"Viada", "Rīga x", [("lpg", some 0)], "viada", ""⟩ :=
  (c7_prices_invariant (.error ()) (.error ()) (.error ()) (.error ())
    (.ok "0.000 EUR Rīga x")).2.2.2.2.1
    ⟨"Viada", "Rīga x", [("lpg", some 0)], "viada", ""⟩ (by decide)

/-! ## C9: in-place mutation by the merge loop -/

theorem lookupUH_mem (u : List ((String × String) × HStation)) (key : String × String)
    (ex : HStation) (h : lookupUH u key = some ex) : (key, ex) ∈ u := by
  induction u with
  | nil => simp [lookupUH] at h
  | cons kv rest ih =>
    obtain ⟨k, s⟩ := kv
    by_cases hk : k = key
    · simp only [lookupUH, if_pos hk] at h
      injection h with h2
      rw [← hk, ← h2]
      exact List.mem_cons_self _ _
    · simp only [lookupUH, if_neg hk] at h
      exact List.mem_cons_of_mem _ (ih h)

/-- Frame property of the heap-level merge loop: a store cell not
referenced by any input record is unchanged by the whole merge. -/
theorem c9_merge_frame (stations : List HStation) (σ : Store) (ref : Nat)
    (h : ref ∉ stations.map HStation.pricesRef) :
    (fetch_all_H stations σ).2 ref = σ ref := by
  have aux : ∀ (l : List HStation) (u : List ((String × String) × HStation)) (σ0 : Store),
      (∀ st ∈ l, st.pricesRef ≠ ref) → (∀ kv ∈ u, kv.2.pricesRef ≠ ref) →
      (l.foldl dedupStepH (u, σ0)).2 ref = σ0 ref := by
    intro l
    induction l with
    | nil => intro u σ0 _ _; rfl
    | cons st rest ih =>
      intro u σ0 hl hu
      cases hc : lookupUH u (canonKeyH st) with
      | none =>
        have hd : dedupStepH (u, σ0) st = (u ++ [(canonKeyH st, st)], σ0) := by
          simp [dedupStepH, hc]
        rw [List.foldl_cons, hd]
        refine ih (u ++ [(canonKeyH st, st)]) σ0
          (fun st2 hm => hl st2 (List.mem_cons_of_mem _ hm)) ?_
        intro kv hm
        rcases List.mem_append.mp hm with hm | hm
        · exact hu kv hm
        · rw [List.mem_singleton.mp hm]
          exact hl st (List.mem_cons_self _ _)
      | some ex =>
        have hex : ex.pricesRef ≠ ref := hu (canonKeyH st, ex) (lookupUH_mem u _ ex hc)
        have hd : dedupStepH (u, σ0) st
            = (u, updStore σ0 ex.pricesRef
                (mergeIntoPrices (σ0 ex.pricesRef) (σ0 st.pricesRef))) := by
          simp [dedupStepH, hc]
        rw [List.foldl_cons, hd,
          ih u _ (fun st2 hm => hl st2 (List.mem_cons_of_mem _ hm)) hu]
        unfold updStore
        rw [if_neg (fun he => hex he.symm)]
  have hl : ∀ st ∈ stations, st.pricesRef ≠ ref :=
    fun st hm he => h (he ▸ List.mem_map_of_mem HStation.pricesRef hm)
  exact aux stations [] σ hl (fun kv hm => absurd hm (by simp))

/-- The two equal-key heap records and initial store of the mutation
counterexample: both named `A` at `X`, with separate prices dicts behind
references 0 and 1. -/
def hr1 : HStation := ⟨"A", "X", 0, "s1", ""⟩

def hr2 : HStation := ⟨"A", "X", 1, "s2", ""⟩

def store0 : Store := fun n =>
  if n = 0 then [("a95", some (3/2 : ℚ))]
  else if n = 1 then [("a95", some (7/5 : ℚ))] else []

/-- Counterexample to C9 as stated: merging two equal-key records mutates
the first-seen (adapter-produced) record's prices mapping in place - the
store cell referenced by the first record has changed after the merge. -/
theorem c9_counterexample :
    (fetch_all_H [hr1, hr2] store0).2 0 = [("a95", some (7/5 : ℚ))] ∧
    store0 0 = [("a95", some (3/2 : ℚ))] ∧
    (fetch_all_H [hr1, hr2] store0).2 0 ≠ store0 0 := by
  refine ⟨?_, ?_, ?_⟩ <;> decide

/-- Concrete instance of the frame property: a reference belonging to no
input record is untouched. -/
theorem c9_merge_frame_witness : (fetch_all_H [hr1, hr2] store0).2 5 = store0 5 :=
  c9_merge_frame [hr1, hr2] store0 5 (by decide)

/-- C9 (amended).  For every merge of two records with the same canonical
key whose prices dicts sit behind distinct references (as adapter-produced
records' dicts always are - each adapter builds a fresh dict per record),
the merge updates the first-seen record's prices mapping in place: the
store cell behind the first record afterwards holds the merge of the two
mappings - per fuel, adopting the incoming price where the first record
lacks it and keeping the lower where both have one - while the incoming
record's mapping, and every mapping not referenced by the two records,
are unchanged. -/
theorem c9_merge_mutates_first_in_place (r1 r2 : HStation) (σ : Store)
    (hk : canonKeyH r1 = canonKeyH r2) (href : r1.pricesRef ≠ r2.pricesRef) :
    (fetch_all_H [r1, r2] σ).2 r1.pricesRef
        = mergeIntoPrices (σ r1.pricesRef) (σ r2.pricesRef) ∧
    (((σ r2.pricesRef).map Prod.fst).Nodup → ∀ fuel,
      getFlat ((fetch_all_H [r1, r2] σ).2 r1.pricesRef) fuel
        = specMergeVal (getFlat (σ r1.pricesRef) fuel) (getFlat (σ r2.pricesRef) fuel)) ∧
    (fetch_all_H [r1, r2] σ).2 r2.pricesRef = σ r2.pricesRef ∧
    (∀ ref, ref ≠ r1.pricesRef → ref ≠ r2.pricesRef →
      (fetch_all_H [r1, r2] σ).2 ref = σ ref) := by
  have hfold : (fetch_all_H [r1, r2] σ).2
      = updStore σ r1.pricesRef (mergeIntoPrices (σ r1.pricesRef) (σ r2.pricesRef)) := by
    show (dedupStepH (dedupStepH ([], σ) r1) r2).2 = _
    have h1 : dedupStepH ([], σ) r1 = ([(canonKeyH r1, r1)], σ) := by
      simp [dedupStepH, lookupUH]
    rw [h1]
    simp [dedupStepH, lookupUH, hk]
  refine ⟨?_, ?_, ?_, ?_⟩
  · rw [hfold]
    unfold updStore
    rw [if_pos rfl]
  · intro hnd fuel
    rw [hfold]
    unfold updStore
    rw [if_pos rfl]
    exact getFlat_mergeIntoPrices _ _ fuel hnd
  · rw [hfold]
    unfold updStore
    rw [if_neg (fun he => href he.symm)]
  · intro ref h1 h2
    rw [hfold]
    unfold updStore
    rw [if_neg h1]

/-- Witness for C9 (amended) at the counterexample's concrete records and
store: the first record's cell holds the merged dict and the incoming
record's cell is unchanged. -/
theorem c9_merge_mutates_first_in_place_witness :
    (fetch_all_H [hr1, hr2] store0).2 hr1.pricesRef
        = mergeIntoPrices (store0 hr1.pricesRef) (store0 hr2.pricesRef) ∧
    (fetch_all_H [hr1, hr2] store0).2 hr2.pricesRef = store0 hr2.pricesRef :=
  ⟨(c9_merge_mutates_first_in_place hr1 hr2 store0 (by decide) (by decide)).1,
   (c9_merge_mutates_first_in_place hr1 hr2 store0 (by decide) (by decide)).2.2.1⟩

/-! ## C10: chain adapters emit uniform records -/

/-- C10.  In one call, every record of each chain adapter carries that
call's chain-wide prices dict (each record holding its own copy, equal in
value), the chain's constant name and source identifier, and an empty
timestamp; records of one call can therefore differ only in their address. -/
theorem c10_chain_records_uniform (t : String) (r : Station) :
    (r ∈ fetch_circlek (.ok t) → r.name = "Circle K" ∧ r.prices = circlekPrices t.toList ∧
      r.source = "circlek" ∧ r.timestamp = "") ∧
    (r ∈ fetch_neste (.ok t) → r.name = "Neste" ∧ r.prices = nestePrices t.toList ∧
      r.source = "neste" ∧ r.timestamp = "") ∧
    (r ∈ fetch_virsi (.ok t) → r.name = "Virši" ∧ r.prices = virsiPrices t.toList ∧
      r.source = "virsi" ∧ r.timestamp = "") ∧
    (r ∈ fetch_viada (.ok t) → r.name = "Viada" ∧ r.prices = viadaPrices t.toList ∧
      r.source = "viada" ∧ r.timestamp = "") := by
  refine ⟨fun hm => ?_, fun hm => ?_, fun hm => ?_, fun hm => ?_⟩
  · simp only [fetch_circlek, circlekParse, List.mem_map] at hm
    obtain ⟨addr, _, hst⟩ := hm
    rw [← hst]
    exact ⟨rfl, rfl, rfl, rfl⟩
  · simp only [fetch_neste, nesteParse, List.mem_map] at hm
    obtain ⟨addr, _, hst⟩ := hm
    rw [← hst]
    exact ⟨rfl, rfl, rfl, rfl⟩
  · simp only [fetch_virsi, virsiParse, List.mem_map] at hm
    obtain ⟨addr, _, hst⟩ := hm
    rw [← hst]
    exact ⟨rfl, rfl, rfl, rfl⟩
  · simp only [fetch_viada, viadaParse, List.mem_map] at hm
    obtain ⟨addr, _, hst⟩ := hm
    rw [← hst]
    exact ⟨rfl, rfl, rfl, rfl⟩

/-- Witness for C10 at a concrete circlek page fragment that yields one
record. -/
theorem c10_chain_records_uniform_witness :
    (⟨"Circle K", "Abcd efgh", [("a95", some (757/500 : ℚ))], "circlek", ""⟩ : Station).name
        = "Circle K" ∧
      (⟨"Circle K", "Abcd efgh", [("a95", some (757/500 : ℚ))], "circlek", ""⟩ : Station).prices
        = circlekPrices "95miles 1.514 EUR Abcd efgh 98miles".toList ∧
      (⟨"Circle K", "Abcd efgh", [("a95", some (757/500 : ℚ))], "circlek", ""⟩ : Station).source
        = "circlek" ∧
      (⟨"Circle K", "Abcd efgh", [("a95", some (757/500 : ℚ))], "circlek", ""⟩ : Station).timestamp
        = "" :=
  (c10_chain_records_uniform "95miles 1.514 EUR Abcd efgh 98miles"
    ⟨"Circle K", "Abcd efgh", [("a95", some (757/500 : ℚ))], "circlek", ""⟩).1 (by decide)
